import Mathlib

/-! # make_test_files: a shallow embedding of `make_test_files.go`

The program builds a random directory hierarchy and fills it with files of
random size.  The embedding follows the Go source function by function:

* package-level variables (`directoriesToCreate`, `totalDirectories`,
  `totalSize`, `fileNames`) and the state of the `math/rand` generator are the
  fields of `State`, passed explicitly;
* the flags are the fields of `Config`;
* a Go `panic` (for instance `rand.Intn` called with a non-positive argument)
  and `log.Fatalf` are the `panic` and `fatal` outcomes of `Result`;
* loops that the language does not bound (`fileName` retries, the recursion of
  `createDirectories`) take an explicit budget.

Library code is modelled, not translated: `math/rand` is a sequence of raw
draws, `rand.Intn n` reducing the next draw modulo `n`; `filepath.Join` is the
Unix implementation (join the elements from the first non-empty one with `/`,
then `Clean`); `io.CopyN` reads chunks through the reader until the requested
number of bytes has been copied.  File system calls are taken to succeed.
Go's `int` is taken to be 64 bits wide.
-/

namespace MakeTestFiles

/-! ## Outcomes -/

/-- Outcome of running a piece of the program: a value, a Go run-time panic, a
`log.Fatalf`, the retry budget of `fileName` spent, or the recursion budget
spent. -/
inductive Result (α : Type) where
  | ok (a : α)
  | panic
  | fatal
  | nameLoop
  | outOfFuel
deriving Repr, DecidableEq

/-- Sequencing: the first outcome that is not a value ends the computation. -/
def Result.bind {α β : Type} (x : Result α) (f : α → Result β) : Result β :=
  match x with
  | .ok a => f a
  | .panic => .panic
  | .fatal => .fatal
  | .nameLoop => .nameLoop
  | .outOfFuel => .outOfFuel

instance : Monad Result where
  pure := Result.ok
  bind := Result.bind

/-- True exactly on a value. -/
def Result.isOk {α : Type} : Result α → Bool
  | .ok _ => true
  | _ => false

/-! ## Machine integers -/

/-- Two's complement wrap-around of a 64-bit signed integer (`int`, `int64`). -/
def wrapInt (x : Int) : Int := (x + 2 ^ 63) % 2 ^ 64 - 2 ^ 63

/-- The values an `int64` can hold. -/
def inInt64 (x : Int) : Prop := -(2 ^ 63) ≤ x ∧ x < 2 ^ 63

instance (x : Int) : Decidable (inInt64 x) := by
  unfold inInt64; exact inferInstance

/-! ## Flags -/

/-- The command line flags, named as the variables that hold them. -/
structure Config where
  numberOfFiles : Int
  zeroes : Bool
  verbose : Bool
  doSync : Bool
  loop : Bool
  averageFilesPerDirectory : Int
  maxDepth : Int
  minFileSize : Int
  maxFileSize : Int
  minFileNameLength : Int
  maxFileNameLength : Int
  defaultSeed : Int

/-- The flag defaults of the `flag.Int`, `flag.Bool` and `flag.Int64` calls. -/
def defaultConfig : Config :=
  { numberOfFiles := 1000, zeroes := false, verbose := false, doSync := false,
    loop := false, averageFilesPerDirectory := 10, maxDepth := 10,
    minFileSize := 0, maxFileSize := 100, minFileNameLength := 4,
    maxFileNameLength := 12, defaultSeed := 1 }

/-- The flags `-n 1 -files-per-directory 1 -max-depth 1`. -/
def depthOneConfig : Config :=
  { defaultConfig with
    numberOfFiles := 1
    averageFilesPerDirectory := 1
    maxDepth := 1 }

/-- The flags `-n 2 -files-per-directory 1 -max-depth 2`. -/
def depthTwoConfig : Config :=
  { defaultConfig with
    numberOfFiles := 2
    averageFilesPerDirectory := 1
    maxDepth := 2 }

/-- The flags `-n 6 -files-per-directory 2 -min-name-length 1 -max-name-length 3`. -/
def shortNamesConfig : Config :=
  { defaultConfig with
    numberOfFiles := 6
    averageFilesPerDirectory := 2
    minFileNameLength := 1
    maxFileNameLength := 3 }

/-- The example scenario of the specification: `-n 5 -files-per-directory 5
-max-depth 2 -min-size 10 -max-size 10 -seed 7 -z`. -/
def scenarioConfig : Config :=
  { defaultConfig with
    numberOfFiles := 5
    averageFilesPerDirectory := 5
    maxDepth := 2
    minFileSize := 10
    maxFileSize := 10
    defaultSeed := 7
    zeroes := true }

/-- The example scenario with `-max-size 11`, so that `[min-size, max-size)`
holds exactly the size 10. -/
def scenarioConfig11 : Config :=
  { scenarioConfig with maxFileSize := 11 }

/-- The flags `-n 1 -files-per-directory 1 -min-name-length 0
-max-name-length 2`: names of length 0 or 1. -/
def emptyNameConfig : Config :=
  { defaultConfig with
    numberOfFiles := 1
    averageFilesPerDirectory := 1
    minFileNameLength := 0
    maxFileNameLength := 2 }

/-- The flags `-n 2 -files-per-directory 1 -max-depth 0`. -/
def depthZeroConfig : Config :=
  { defaultConfig with
    numberOfFiles := 2
    averageFilesPerDirectory := 1
    maxDepth := 0 }

/-- The flags `-n 3 -files-per-directory 5`: fewer files than files per
directory, so the target directory count is 0. -/
def noDirectoriesConfig : Config :=
  { defaultConfig with
    numberOfFiles := 3
    averageFilesPerDirectory := 5 }

/-- The flags `-min-name-length 0 -max-name-length 1`: the only name is the
empty one. -/
def exhaustedConfig : Config :=
  { defaultConfig with
    minFileNameLength := 0
    maxFileNameLength := 1 }

/-- Every integer flag fits its Go type. -/
def Config.inRange (cfg : Config) : Prop :=
  inInt64 cfg.numberOfFiles ∧ inInt64 cfg.averageFilesPerDirectory ∧
  inInt64 cfg.maxDepth ∧ inInt64 cfg.minFileSize ∧ inInt64 cfg.maxFileSize ∧
  inInt64 cfg.minFileNameLength ∧ inInt64 cfg.maxFileNameLength ∧
  inInt64 cfg.defaultSeed

/-! ## The pseudo-random generator -/

/-- State of the `math/rand` generator: the sequence of raw draws it will
produce and how many have been consumed. -/
structure Rand where
  draws : Nat → Nat
  pos : Nat

/-- The call `rand.Intn(n)`: panics unless `0 < n`, otherwise a value in `[0, n)`. -/
def Rand.Intn (r : Rand) (n : Int) : Result (Nat × Rand) :=
  if n ≤ 0 then .panic
  else .ok (r.draws r.pos % n.toNat, { r with pos := r.pos + 1 })

/-- The call `rand.Int63n(n)`: panics unless `0 < n`, otherwise a value in `[0, n)`. -/
def Rand.Int63n (r : Rand) (n : Int) : Result (Nat × Rand) :=
  if n ≤ 0 then .panic
  else .ok (r.draws r.pos % n.toNat, { r with pos := r.pos + 1 })

/-! ## Files and program state -/

/-- One file written by `writeFile`: the directory, the name, the size drawn
and the bytes copied into it. -/
structure FileWrite where
  dir : String
  name : String
  size : Int
  content : List Nat
deriving Repr, DecidableEq

/-- The package-level variables, the generator, the `crypto/rand` byte source
and the files written so far.  `fileNames` lists the keys of the Go map, the
most recently inserted first. -/
structure State where
  rand : Rand
  crypt : Rand
  directoriesToCreate : Int
  totalDirectories : Int
  totalSize : Int
  fileNames : List String
  written : List FileWrite

/-- The state a process starts in: counters zero, no name used, nothing
written; `draws` and `crypt` are the sequences the two random sources hold. -/
def State.start (draws crypt : Nat → Nat) : State :=
  { rand := { draws := draws, pos := 0 }, crypt := { draws := crypt, pos := 0 },
    directoriesToCreate := 0, totalDirectories := 0, totalSize := 0,
    fileNames := [], written := [] }

/-! ## randomString and fileName -/

def vowel : List Char := "aeiou".toList

def consonant : List Char := "bcdfghjklmnpqrstvwxyz".toList

def digit : List Char := "0123456789".toList

def pattern : List (List Char) :=
  [consonant, vowel, consonant, vowel, consonant, vowel, consonant, digit]

/-- The loop `for i := range out` of `randomString`: `k` iterations remain, `i`
is the index written next and `p` the position in the pattern. -/
def randomStringLoop : Nat → Nat → Nat → List Char → Rand → Result (List Char × Rand)
  | 0, _, _, out, r => .ok (out, r)
  | k + 1, i, p, out, r =>
    match pattern[p]? with
    | none => .panic
    | some source =>
      (r.Intn source.length).bind fun jr =>
        match source[jr.1]? with
        | none => .panic
        | some c => randomStringLoop k (i + 1) ((p + 1) % pattern.length) (out.set i c) jr.2

/-- The function `randomString(n)`: `make([]byte, n)` panics on a negative
length, then every index of the buffer is filled. -/
def randomString (n : Int) (r : Rand) : Result (String × Rand) :=
  if n < 0 then .panic
  else
    (randomStringLoop n.toNat 0 0 (List.replicate n.toNat (Char.ofNat 0)) r).bind fun res =>
      .ok (String.mk res.1, res.2)

/-- The function `fileName()`, with a budget of `nf` candidates for its
`for` loop. -/
def fileName (cfg : Config) : Nat → State → Result (String × State)
  | 0, _ => .nameLoop
  | nf + 1, st =>
    (st.rand.Intn (wrapInt (cfg.maxFileNameLength - cfg.minFileNameLength))).bind fun kr =>
      (randomString (wrapInt (kr.1 + cfg.minFileNameLength)) kr.2).bind fun nr =>
        if nr.1 ∈ st.fileNames then fileName cfg nf { st with rand := nr.2 }
        else .ok (nr.1, { st with rand := nr.2, fileNames := nr.1 :: st.fileNames })

/-! ## The directory hierarchy -/

/-- A `dir` node.  The `parent` pointer of the Go struct is a back reference
that no code reads; it is the position of the node in the tree. -/
inductive Dir where
  | mk (name : String) (depth : Int) (children : List Dir)
deriving Repr

def Dir.name : Dir → String
  | .mk n _ _ => n

def Dir.depth : Dir → Int
  | .mk _ d _ => d

def Dir.children : Dir → List Dir
  | .mk _ _ cs => cs

/-- The statement `d.children = append(d.children, newDir)`. -/
def Dir.addChild : Dir → Dir → Dir
  | .mk n d cs, c => .mk n d (cs ++ [c])

/-- The method `createDirectories`.  One unit of budget is spent per loop
iteration and per recursive call; `nf` is the budget of each `fileName` call.
The child is attached once its own subtree is complete, which is what the
in-place update through the pointer amounts to. -/
def createDirectories (cfg : Config) (nf : Nat) : Nat → Dir → State → Result (Dir × State)
  | 0, _, _ => .outOfFuel
  | fuel + 1, d, st =>
    if st.totalDirectories < st.directoriesToCreate then
      (fileName cfg nf st).bind fun ns =>
        let newDir := Dir.mk ns.1 (d.depth + 1) []
        let st2 := { ns.2 with totalDirectories := ns.2.totalDirectories + 1 }
        (st2.rand.Intn 4).bind fun cr =>
          let st3 := { st2 with rand := cr.2 }
          match cr.1 with
          | 0 =>
            if d.depth < cfg.maxDepth then
              (createDirectories cfg nf fuel newDir st3).bind fun ds =>
                createDirectories cfg nf fuel (d.addChild ds.1) ds.2
            else createDirectories cfg nf fuel (d.addChild newDir) st3
          | 1 => .ok (d.addChild newDir, st3)
          | _ => createDirectories cfg nf fuel (d.addChild newDir) st3
    else .ok (d, st)

/-- The loop `for totalDirectories < directoriesToCreate { root.createDirectories() }`
of `main`; `cf` is the budget handed to each call. -/
def driverLoop (cfg : Config) (nf cf : Nat) : Nat → Dir → State → Result (Dir × State)
  | 0, _, _ => .outOfFuel
  | fuel + 1, root, st =>
    if st.totalDirectories < st.directoriesToCreate then
      (createDirectories cfg nf cf root st).bind fun rs =>
        driverLoop cfg nf cf fuel rs.1 rs.2
    else .ok (root, st)

/-- The driver loop with one budget for both levels. -/
def driver (cfg : Config) (nf fuel : Nat) (root : Dir) (st : State) : Result (Dir × State) :=
  driverLoop cfg nf fuel fuel root st

/-- The node `createDirectories` creates under `d`: `&dir{name, depth: d.depth + 1}`. -/
def newChild (d : Dir) (name : String) : Dir := Dir.mk name (d.depth + 1) []

/-- The state after `totalDirectories++` and the draw of the `switch`. -/
def counted (st : State) (r : Rand) : State :=
  { st with totalDirectories := st.totalDirectories + 1, rand := r }

/-- The runs of `createDirectories` that return, as a relation between the
node and state at entry and at return, one rule per path through the loop
body: the loop condition fails (`done`); the draw is 1 and the call returns
(`stop`); the draw is 0 below the depth limit, the child is built and the loop
goes on (`descend`); any other draw, the loop goes on (`next`). -/
inductive Builds (cfg : Config) (nf : Nat) : Dir → State → Dir → State → Prop
  | done (d : Dir) (st : State)
      (h : ¬ st.totalDirectories < st.directoriesToCreate) : Builds cfg nf d st d st
  | stop (d : Dir) (st : State) (name : String) (st1 : State) (r : Rand)
      (h : st.totalDirectories < st.directoriesToCreate)
      (hn : fileName cfg nf st = .ok (name, st1))
      (hr : st1.rand.Intn 4 = .ok (1, r)) :
      Builds cfg nf d st (d.addChild (newChild d name)) (counted st1 r)
  | descend (d : Dir) (st : State) (name : String) (st1 : State) (r : Rand)
      (sub : Dir) (st4 : State) (d' : Dir) (st' : State)
      (h : st.totalDirectories < st.directoriesToCreate)
      (hn : fileName cfg nf st = .ok (name, st1))
      (hr : st1.rand.Intn 4 = .ok (0, r))
      (hd : d.depth < cfg.maxDepth)
      (hsub : Builds cfg nf (newChild d name) (counted st1 r) sub st4)
      (hrest : Builds cfg nf (d.addChild sub) st4 d' st') : Builds cfg nf d st d' st'
  | next (d : Dir) (st : State) (name : String) (st1 : State) (c : Nat) (r : Rand)
      (d' : Dir) (st' : State)
      (h : st.totalDirectories < st.directoriesToCreate)
      (hn : fileName cfg nf st = .ok (name, st1))
      (hr : st1.rand.Intn 4 = .ok (c, r))
      (hc : c ≠ 1 ∧ (c = 0 → ¬ d.depth < cfg.maxDepth))
      (hrest : Builds cfg nf (d.addChild (newChild d name)) (counted st1 r) d' st') :
      Builds cfg nf d st d' st'

/-! ## Paths -/

/-- The pieces of a string between its `/` separators (`strings.Split`). -/
def splitSlash : List Char → List (List Char)
  | [] => [[]]
  | c :: cs =>
    if c = '/' then [] :: splitSlash cs
    else
      match splitSlash cs with
      | [] => [[c]]
      | e :: es => (c :: e) :: es

/-- One path element processed by `filepath.Clean`; `stk` holds the elements
kept so far, the last one first.  Empty and `.` elements are dropped, a `..`
removes the element before it, is dropped at the top of a rooted path, and is
kept where there is nothing but `..` before it. -/
def cleanStep (rooted : Bool) (stk : List (List Char)) (e : List Char) : List (List Char) :=
  if e = [] ∨ e = ['.'] then stk
  else if e = ['.', '.'] then
    match stk with
    | [] => if rooted then [] else [e]
    | t :: rest => if t = ['.', '.'] then e :: stk else rest
  else e :: stk

/-- The elements `filepath.Clean` keeps, the last one first. -/
def cleanStack (rooted : Bool) (s : List Char) : List (List Char) :=
  (splitSlash s).foldl (cleanStep rooted) []

/-- The elements joined with `/`. -/
def joinSlash : List (List Char) → List Char
  | [] => []
  | [e] => e
  | e :: es => e ++ '/' :: joinSlash es

/-- The text of a cleaned path: a leading `/` when rooted, the elements joined
with `/`, and `.` when that is empty. -/
def renderPath (rooted : Bool) (stk : List (List Char)) : List Char :=
  let body := joinSlash stk.reverse
  if rooted then '/' :: body
  else if body = [] then ['.'] else body

/-- The function `filepath.Clean` on Unix. -/
def filepathClean (s : List Char) : List Char :=
  match s with
  | [] => ['.']
  | c :: _ => renderPath (c = '/') (cleanStack (c = '/') s)

/-- The call `filepath.Join(a, b)` on Unix: the elements from the first
non-empty one on are joined with `/` and cleaned; the result is empty when
both are empty. -/
def filepathJoin (a b : String) : String :=
  if a.data ≠ [] then String.mk (filepathClean (a.data ++ '/' :: b.data))
  else if b.data ≠ [] then String.mk (filepathClean b.data)
  else ""

/-! ## Flattening -/

mutual
/-- The method `list`: the path of `d` is appended to `output`, then the
children are listed in order. -/
def Dir.list : Dir → String → List String → List String
  | .mk name _ children, path, output =>
    listChildren children (filepathJoin path name) (output ++ [filepathJoin path name])
/-- The loop `for _, subDir := range d.children` of `list`. -/
def listChildren : List Dir → String → List String → List String
  | [], _, output => output
  | subDir :: rest, dirPath, output => listChildren rest dirPath (subDir.list dirPath output)
end

mutual
/-- Number of nodes of the subtree at a node, the node included. -/
def Dir.size : Dir → Nat
  | .mk _ _ children => 1 + sizeChildren children
/-- Number of nodes of the subtrees at the nodes of a list. -/
def sizeChildren : List Dir → Nat
  | [] => 0
  | c :: cs => c.size + sizeChildren cs
end

mutual
/-- Pre-order flattening as the specification words it: the path of the node,
followed by the flattening of each child under that path, in order. -/
def Dir.preorder : Dir → String → List String
  | .mk name _ children, path =>
    filepathJoin path name :: preorderChildren children (filepathJoin path name)
/-- Concatenation of the flattenings of the nodes of a list under one path. -/
def preorderChildren : List Dir → String → List String
  | [], _ => []
  | c :: cs, dirPath => c.preorder dirPath ++ preorderChildren cs dirPath
end

mutual
/-- Names of the nodes strictly below a node, in pre-order. -/
def Dir.descNames : Dir → List String
  | .mk _ _ children => namesChildren children
/-- Names of the nodes of the subtrees at the nodes of a list, in pre-order. -/
def namesChildren : List Dir → List String
  | [] => []
  | c :: cs => (c.name :: c.descNames) ++ namesChildren cs
end

mutual
/-- Depth fields of the nodes strictly below a node, in pre-order. -/
def Dir.descDepths : Dir → List Int
  | .mk _ _ children => depthsChildren children
/-- Depth fields of the nodes of the subtrees at the nodes of a list. -/
def depthsChildren : List Dir → List Int
  | [] => []
  | c :: cs => (c.depth :: c.descDepths) ++ depthsChildren cs
end

/-- Depth fields of all the nodes of the subtree at a node, the node first. -/
def Dir.allDepths (d : Dir) : List Int := d.depth :: d.descDepths

/-! ## Paths as stacks of elements -/

/-- A name `filepath.Clean` keeps as one element: not empty, without a
separator and without a dot. -/
def validName (n : List Char) : Prop := n ≠ [] ∧ '/' ∉ n ∧ '.' ∉ n

/-- The stacks `filepath.Clean` can end with (last element first): no element
is empty, holds a separator or is `.`, and a `..` element occurs only in a path
that is not rooted, with nothing but `..` elements before it. -/
def CleanStk (rooted : Bool) : List (List Char) → Prop
  | [] => True
  | t :: rest =>
    t ≠ [] ∧ '/' ∉ t ∧ t ≠ ['.'] ∧
      (t = ['.', '.'] → rooted = false ∧ ∀ e ∈ rest, e = ['.', '.']) ∧
      CleanStk rooted rest

/-- The path `p` is the text of the stack `stk`, or it is the empty path that
`filepath.Join` returns when every element is empty. -/
def Rep (p : String) (rooted : Bool) (stk : List (List Char)) : Prop :=
  CleanStk rooted stk ∧
    (p = String.mk (renderPath rooted stk) ∨ (p = "" ∧ rooted = false ∧ stk = []))

mutual
/-- The stacks of the paths of a node and of the nodes below it, in pre-order,
when the path of the parent has the stack `stk`. -/
def Dir.stacks : Dir → List (List Char) → List (List (List Char))
  | .mk name _ children, stk => (name.data :: stk) :: stacksChildren children (name.data :: stk)
/-- The stacks of the paths of the nodes of the subtrees at the nodes of a list. -/
def stacksChildren : List Dir → List (List Char) → List (List (List Char))
  | [], _ => []
  | c :: cs, stk => c.stacks stk ++ stacksChildren cs stk
end

mutual
/-- One entry per node strictly below a node, in pre-order: the depth field of
its parent, its own depth field and the number of its children. -/
def Dir.links : Dir → List (Int × Int × Nat)
  | .mk _ depth children => linksChildren depth children
/-- The entries of the nodes of the subtrees at the nodes of a list, whose
parent has the depth field `pd`. -/
def linksChildren : Int → List Dir → List (Int × Int × Nat)
  | _, [] => []
  | pd, c :: cs => ((pd, c.depth, c.children.length) :: c.links) ++ linksChildren pd cs
end

/-- The node `d'` and state `st'` are what calls of `createDirectories` on
`d` from `st` can leave: `added` are the names allocated, newest first, and
`nd` the depth fields of the nodes created. -/
def Extends (cfg : Config) (d : Dir) (st : State) (d' : Dir) (st' : State) : Prop :=
  d'.name = d.name ∧ d'.depth = d.depth ∧
    st'.directoriesToCreate = st.directoriesToCreate ∧ st'.crypt = st.crypt ∧
    st'.written = st.written ∧ st'.totalSize = st.totalSize ∧
    (∃ added : List String,
      st'.fileNames = added ++ st.fileNames ∧
      d'.descNames = d.descNames ++ added.reverse ∧
      st'.totalDirectories = st.totalDirectories + added.length ∧
      (st.fileNames.Nodup → st'.fileNames.Nodup) ∧
      (st.totalDirectories ≤ st.directoriesToCreate →
        st'.totalDirectories ≤ st.directoriesToCreate)) ∧
    ∃ nd : List Int, d'.descDepths = d.descDepths ++ nd ∧
      ∀ x ∈ nd, d.depth + 1 ≤ x ∧ x ≤ max d.depth cfg.maxDepth + 1

/-! ## Writing files -/

/-- What a `Read` call hands back: the buffer after the call, the count `n`
and whether `err` is non-nil. -/
structure ReadResult where
  buf : List Nat
  n : Nat
  err : Bool
deriving Repr, DecidableEq

/-- The loop `for i := range p` of `zeroReader.Read`, over the indices of
`idx`: `p[i] = 0; n++`. -/
def zeroReadLoop : List Nat → List Nat → Nat → List Nat × Nat
  | [], p, n => (p, n)
  | i :: idx, p, n => zeroReadLoop idx (p.set i 0) (n + 1)

/-- The method `zeroReader.Read`. -/
def zeroReader.Read (p : List Nat) : ReadResult :=
  let pn := zeroReadLoop (List.range p.length) p 0
  { buf := pn.1, n := pn.2, err := false }

/-- The reader `cryptrand.Reader` fills the buffer with the next bytes of its
source. -/
def cryptReader.Read (c : Rand) (p : List Nat) : ReadResult × Rand :=
  ({ buf := (List.range p.length).map (fun i => c.draws (c.pos + i) % 256),
     n := p.length, err := false },
   { c with pos := c.pos + p.length })

/-- The variable `in` of `writeFile`: a `zeroReader` when `-z` is given, else
`cryptrand.Reader`. -/
def readIn (zeroes : Bool) (c : Rand) (p : List Nat) : ReadResult × Rand :=
  if zeroes then (zeroReader.Read p, c) else cryptReader.Read c p

/-- The call `io.CopyN(fd, in, size)`: while bytes remain, read at most a
buffer-full and append what was read to the file.  `buf` is the copy buffer
with whatever it holds, `left` the bytes still to copy, `out` the file so far.
One unit of budget is spent per read. -/
def copyN (zeroes : Bool) (buf : List Nat) : Nat → Nat → Rand → List Nat → Option (List Nat × Rand)
  | _, 0, c, out => some (out, c)
  | 0, _ + 1, _, _ => none
  | fuel + 1, left + 1, c, out =>
    let rr := readIn zeroes c (buf.take (left + 1))
    if rr.1.err then none
    else copyN zeroes buf fuel (left + 1 - rr.1.n) rr.2 (out ++ rr.1.buf.take rr.1.n)

/-- The copy buffer of `io.Copy` as allocated: 32 KiB. -/
def copyBuffer : List Nat := List.replicate (32 * 1024) 0

/-- The function `writeFile(dir, name)`.  The size is drawn, `totalSize` is
updated and the file is recorded with the bytes copied into it; a copy that
fails is fatal. -/
def writeFile (cfg : Config) (dir name : String) (st : State) : Result State :=
  (st.rand.Int63n (wrapInt (cfg.maxFileSize - cfg.minFileSize))).bind fun kr =>
    let size := wrapInt (kr.1 + cfg.minFileSize)
    let st1 := { st with rand := kr.2, totalSize := wrapInt (st.totalSize + size) }
    match copyN cfg.zeroes copyBuffer size.toNat size.toNat st1.crypt [] with
    | none => .fatal
    | some oc =>
      .ok { st1 with crypt := oc.2,
                     written := st1.written ++ [{ dir := dir, name := name, size := size, content := oc.1 }] }

/-- The loop `for i := 0; i < *numberOfFiles; i++` of `main`, with `k`
iterations remaining.  The argument `fileName()` is evaluated before
`writeFile` is entered. -/
def fileLoop (cfg : Config) (nf : Nat) (dirs : List String) : Nat → State → Result State
  | 0, st => .ok st
  | k + 1, st =>
    (st.rand.Intn dirs.length).bind fun jr =>
      match dirs[jr.1]? with
      | none => .panic
      | some dir =>
        (fileName cfg nf { st with rand := jr.2 }).bind fun ns =>
          (writeFile cfg dir ns.1 ns.2).bind fun st2 =>
            fileLoop cfg nf dirs k st2

/-! ## The body of main -/

/-- What one round of the loop of `main` produces: the hierarchy, its
flattening and the files written in this round. -/
structure Round where
  root : Dir
  dirs : List String
  files : List FileWrite

/-- One round of the `for` loop of `main`.  `seed s` is the sequence of draws
`rand.Seed(s)` sets the generator to.  The integer division panics on a zero
divisor. -/
def iteration (cfg : Config) (seed : Int → Nat → Nat) (nf fuel : Nat)
    (outputDirectory : String) (st : State) : Result (Round × State) :=
  let st0 := { st with rand := { draws := seed cfg.defaultSeed, pos := 0 },
                       fileNames := [], totalSize := 0 }
  if cfg.averageFilesPerDirectory = 0 then .panic
  else
    let st1 := { st0 with
      directoriesToCreate := wrapInt (Int.tdiv cfg.numberOfFiles cfg.averageFilesPerDirectory),
      totalDirectories := 0 }
    (driver cfg nf fuel (Dir.mk outputDirectory 1 []) st1).bind fun rs =>
      let dirs := rs.1.list "" []
      (fileLoop cfg nf dirs cfg.numberOfFiles.toNat rs.2).bind fun st3 =>
        .ok ({ root := rs.1, dirs := dirs, files := st3.written.drop rs.2.written.length }, st3)

/-- The first `k` rounds of `main` in loop mode, each starting from the state
the previous one left. -/
def rounds (cfg : Config) (seed : Int → Nat → Nat) (nf fuel : Nat)
    (outputDirectory : String) : Nat → State → Result (List Round × State)
  | 0, st => .ok ([], st)
  | k + 1, st =>
    (iteration cfg seed nf fuel outputDirectory st).bind fun os =>
      (rounds cfg seed nf fuel outputDirectory k os.2).bind fun rest =>
        .ok (os.1 :: rest.1, rest.2)

/-- The triple (directory, file name, size) of a written file. -/
def FileWrite.triple (f : FileWrite) : String × String × Int := (f.dir, f.name, f.size)

/-- What a round shows from outside: the flattened directory list and the
(directory, file name, size) triples of its files, or how it failed. -/
def observe (x : Result (Round × State)) :
    Result (List String × List (String × String × Int)) :=
  x.bind fun p => .ok (p.1.dirs, p.1.files.map FileWrite.triple)

/-- Two states hold the same generator, counters and name set; the bytes
source, `totalSize` and the files written may differ. -/
def Agree (s t : State) : Prop :=
  s.rand = t.rand ∧ s.directoriesToCreate = t.directoriesToCreate ∧
    s.totalDirectories = t.totalDirectories ∧ s.fileNames = t.fileNames

/-- Two outcomes fail the same way, or are values related by `R`. -/
def RelRes {α : Type} (R : α → α → Prop) : Result α → Result α → Prop
  | .ok a, .ok b => R a b
  | .panic, .panic => True
  | .fatal, .fatal => True
  | .nameLoop, .nameLoop => True
  | .outOfFuel, .outOfFuel => True
  | _, _ => False

/-- The function `main`: exactly one argument is required.  Without `-loop`
the body runs once; with `-loop` it is repeated for ever, so after the `k`
rounds the budget allows the budget is spent. -/
def main (cfg : Config) (seed : Int → Nat → Nat) (nf fuel k : Nat)
    (args : List String) (st : State) : Result (List Round × State) :=
  match args with
  | [outputDirectory] =>
    if cfg.loop then
      (rounds cfg seed nf fuel outputDirectory k st).bind fun _ => .outOfFuel
    else
      (iteration cfg seed nf fuel outputDirectory st).bind fun os => .ok ([os.1], os.2)
  | _ => .fatal


/-! # Properties -/

/-! ## Outcomes, integers, generator -/

theorem wrapInt_eq {x : Int} (h : inInt64 x) : wrapInt x = x := by
  unfold inInt64 at h
  unfold wrapInt
  omega

theorem bind_eq_ok {α β : Type} {x : Result α} {f : α → Result β} {b : β} :
    x.bind f = .ok b ↔ ∃ a, x = .ok a ∧ f a = .ok b := by
  cases x <;> simp [Result.bind]

theorem Intn_eq_ok {r : Rand} {n : Int} {k : Nat} {r' : Rand} :
    r.Intn n = .ok (k, r') ↔
      0 < n ∧ k = r.draws r.pos % n.toNat ∧ r' = { r with pos := r.pos + 1 } := by
  unfold Rand.Intn
  split
  · simp; omega
  · simp
    constructor
    · rintro ⟨h1, h2⟩; exact ⟨by omega, h1.symm, h2.symm⟩
    · rintro ⟨_, h1, h2⟩; exact ⟨h1.symm, h2.symm⟩

theorem Intn_pos {r : Rand} {n : Int} (h : 0 < n) :
    r.Intn n = .ok (r.draws r.pos % n.toNat, { r with pos := r.pos + 1 }) := by
  unfold Rand.Intn
  rw [if_neg (by omega)]

theorem Int63n_pos {r : Rand} {n : Int} (h : 0 < n) :
    r.Int63n n = .ok (r.draws r.pos % n.toNat, { r with pos := r.pos + 1 }) := by
  unfold Rand.Int63n
  rw [if_neg (by omega)]

theorem mod_toNat_lt (a : Nat) {n : Int} (h : 0 < n) : ((a % n.toNat : Nat) : Int) < n := by
  have : a % n.toNat < n.toNat := Nat.mod_lt _ (by omega)
  omega

/-! ## zeroReader and io.CopyN -/

theorem zeroReadLoop_eq (idx p : List Nat) (n : Nat) :
    zeroReadLoop idx p n = (idx.foldl (fun q i => q.set i 0) p, n + idx.length) := by
  induction idx generalizing p n with
  | nil => simp [zeroReadLoop]
  | cons i idx ih => simp [zeroReadLoop, ih]; omega

theorem foldl_set_range (p : List Nat) (k : Nat) (j : Nat) :
    ((List.range k).foldl (fun q i => q.set i 0) p)[j]? =
      if j < k then (if j < p.length then some 0 else none) else p[j]? := by
  induction k with
  | zero => simp
  | succ k ih =>
    rw [List.range_succ, List.foldl_append]
    simp only [List.foldl_cons, List.foldl_nil]
    rw [List.getElem?_set]
    have hlen : ((List.range k).foldl (fun q i => q.set i 0) p).length = p.length := by
      clear ih
      induction k with
      | zero => simp
      | succ k ih2 => rw [List.range_succ, List.foldl_append]; simp [ih2]
    rw [hlen, ih]
    by_cases h1 : k = j
    · subst h1; simp
    · by_cases h2 : j < k
      · have h3 : j < k + 1 := by omega
        simp [h1, h2, h3]
      · have h3 : ¬ j < k + 1 := by omega
        simp [h1, h2, h3]

theorem zeroReader_Read_eq (p : List Nat) :
    zeroReader.Read p = { buf := List.replicate p.length 0, n := p.length, err := false } := by
  unfold zeroReader.Read
  rw [zeroReadLoop_eq]
  simp only [List.length_range, Nat.zero_add]
  congr 1
  apply List.ext_getElem?
  intro j
  rw [foldl_set_range, List.getElem?_replicate]
  by_cases h : j < p.length
  · simp [h]
  · simp [h]
    omega

theorem readIn_spec (zeroes : Bool) (c : Rand) (p : List Nat) :
    (readIn zeroes c p).1.n = p.length ∧ (readIn zeroes c p).1.err = false ∧
      (readIn zeroes c p).1.buf.length = p.length := by
  unfold readIn
  cases zeroes
  · simp [cryptReader.Read]
  · simp [zeroReader_Read_eq]

theorem copyN_some (zeroes : Bool) (buf : List Nat) (hbuf : buf ≠ []) :
    ∀ (fuel left : Nat) (c : Rand) (out : List Nat), left ≤ fuel →
      ∃ o c', copyN zeroes buf fuel left c out = some (o, c') ∧
        o.length = out.length + left := by
  intro fuel
  induction fuel with
  | zero =>
    intro left c out h
    have : left = 0 := by omega
    subst this
    exact ⟨out, c, by simp [copyN], by simp⟩
  | succ fuel ih =>
    intro left c out h
    cases left with
    | zero => exact ⟨out, c, by simp [copyN], by simp⟩
    | succ left =>
      obtain ⟨hn, he, hl⟩ := readIn_spec zeroes c (buf.take (left + 1))
      have hpos : 0 < buf.length := List.length_pos.mpr hbuf
      have htk : (buf.take (left + 1)).length = min (left + 1) buf.length := List.length_take _ _
      obtain ⟨o, c', ho, hlen⟩ := ih (left + 1 - (readIn zeroes c (buf.take (left + 1))).1.n)
        (readIn zeroes c (buf.take (left + 1))).2
        (out ++ (readIn zeroes c (buf.take (left + 1))).1.buf.take
          (readIn zeroes c (buf.take (left + 1))).1.n) (by rw [hn, htk]; omega)
      refine ⟨o, c', ?_, ?_⟩
      · simp only [copyN, he]
        simpa using ho
      · rw [hlen, List.length_append, List.length_take, hl, hn, htk]
        omega

theorem copyN_zero (buf : List Nat) (hbuf : buf ≠ []) :
    ∀ (fuel left : Nat) (c : Rand) (out : List Nat), left ≤ fuel →
      copyN true buf fuel left c out = some (out ++ List.replicate left 0, c) := by
  intro fuel
  induction fuel with
  | zero =>
    intro left c out h
    have : left = 0 := by omega
    subst this
    simp [copyN]
  | succ fuel ih =>
    intro left c out h
    cases left with
    | zero => simp [copyN]
    | succ left =>
      have hpos : 0 < buf.length := List.length_pos.mpr hbuf
      have htk : (buf.take (left + 1)).length = min (left + 1) buf.length := List.length_take _ _
      simp only [copyN, readIn, zeroReader_Read_eq, if_true]
      simp only [Bool.false_eq_true, if_false]
      rw [ih _ _ _ (by rw [htk]; omega), htk]
      simp only [List.take_replicate, Nat.min_self, List.append_assoc, ← List.replicate_add]
      have e : min (left + 1) buf.length + (left + 1 - min (left + 1) buf.length) = left + 1 := by
        omega
      rw [e]

theorem copyBuffer_ne_nil : copyBuffer ≠ [] := by
  unfold copyBuffer
  intro h
  have := congrArg List.length h
  rw [List.length_replicate] at this
  exact absurd this (by decide)

/-! ## writeFile -/

theorem writeFile_of_pos (cfg : Config) (dir name : String) (st : State) (size : Int)
    (h : 0 < wrapInt (cfg.maxFileSize - cfg.minFileSize))
    (hsize : size = wrapInt ((st.rand.draws st.rand.pos %
      (wrapInt (cfg.maxFileSize - cfg.minFileSize)).toNat : Nat) + cfg.minFileSize)) :
    ∃ content c',
      content.length = size.toNat ∧
      (cfg.zeroes = true → content = List.replicate content.length 0) ∧
      writeFile cfg dir name st = .ok
        { st with
          rand := { st.rand with pos := st.rand.pos + 1 },
          totalSize := wrapInt (st.totalSize + size),
          crypt := c',
          written := st.written ++ [FileWrite.mk dir name size content] } := by
  obtain ⟨o, c', ho, hlen⟩ := copyN_some cfg.zeroes copyBuffer copyBuffer_ne_nil
    size.toNat size.toNat st.crypt [] (Nat.le_refl _)
  refine ⟨o, c', by simpa using hlen, ?_, ?_⟩
  · intro hz
    rw [hz, copyN_zero copyBuffer copyBuffer_ne_nil _ _ _ _ (Nat.le_refl _)] at ho
    simp only [List.nil_append, Option.some.injEq, Prod.mk.injEq] at ho
    rw [← ho.1]
    simp
  · unfold writeFile
    rw [Int63n_pos h]
    simp only [Result.bind]
    rw [← hsize, ho]

theorem writeFile_panics (cfg : Config) (dir name : String) (st : State)
    (h : wrapInt (cfg.maxFileSize - cfg.minFileSize) ≤ 0) :
    writeFile cfg dir name st = .panic := by
  unfold writeFile Rand.Int63n
  rw [if_pos h]
  rfl

/-- Claim C7 (size bound).  When `0 <= min-size < max-size`, `writeFile` returns
for every state of the generator, the file it records has the size
`rand.Int63n(max-size - min-size) + min-size`, and that size is at least
`min-size` and less than `max-size`. -/
theorem writeFile_size_bound (cfg : Config) (dir name : String) (st : State)
    (hmin : 0 ≤ cfg.minFileSize) (hlt : cfg.minFileSize < cfg.maxFileSize)
    (hmax : inInt64 cfg.maxFileSize) :
    ∃ st' fw, writeFile cfg dir name st = .ok st' ∧
      st'.written = st.written ++ [fw] ∧ fw.dir = dir ∧ fw.name = name ∧
      fw.size = (st.rand.draws st.rand.pos %
        (cfg.maxFileSize - cfg.minFileSize).toNat : Nat) + cfg.minFileSize ∧
      cfg.minFileSize ≤ fw.size ∧ fw.size < cfg.maxFileSize := by
  have hw : wrapInt (cfg.maxFileSize - cfg.minFileSize) =
      cfg.maxFileSize - cfg.minFileSize := by
    apply wrapInt_eq
    unfold inInt64 at *
    omega
  have hpos : 0 < wrapInt (cfg.maxFileSize - cfg.minFileSize) := by rw [hw]; omega
  obtain ⟨content, c', -, -, hwf⟩ := writeFile_of_pos cfg dir name st _ hpos rfl
  have hk := mod_toNat_lt (st.rand.draws st.rand.pos)
    (show 0 < cfg.maxFileSize - cfg.minFileSize by omega)
  have hs : wrapInt ((st.rand.draws st.rand.pos %
      (cfg.maxFileSize - cfg.minFileSize).toNat : Nat) + cfg.minFileSize) =
      (st.rand.draws st.rand.pos %
        (cfg.maxFileSize - cfg.minFileSize).toNat : Nat) + cfg.minFileSize := by
    apply wrapInt_eq
    unfold inInt64 at *
    omega
  rw [hw, hs] at hwf
  refine ⟨_, FileWrite.mk dir name _ content, hwf, rfl, rfl, rfl, rfl, ?_, ?_⟩
  · show cfg.minFileSize ≤ _ + _
    omega
  · show _ + _ < cfg.maxFileSize
    omega

theorem writeFile_size_bound_witness :
    ∃ st' fw,
      writeFile defaultConfig "d" "bab0" (State.start (fun i => 7 * i + 250) id) = .ok st' ∧
      st'.written = [] ++ [fw] ∧ fw.dir = "d" ∧ fw.name = "bab0" ∧
      fw.size = ((250 % (100 - 0 : Int).toNat : Nat) : Int) + 0 ∧
      (0 : Int) ≤ fw.size ∧ fw.size < 100 :=
  writeFile_size_bound defaultConfig "d" "bab0" (State.start (fun i => 7 * i + 250) id)
    (by decide) (by decide) (by decide)

/-- Claim C8 (zero fill).  `zeroReader.Read(p)` leaves every byte of `p` zero and
returns `n = len(p)` with a nil error, for every buffer `p`; copying `size`
bytes from a `zeroReader` through any non-empty copy buffer yields `size`
zero bytes; and with `-z` every file `writeFile` records holds only zero
bytes, as many as its size. -/
theorem zeroReader_fills_with_zero (p buf : List Nat) (size : Nat) (c : Rand)
    (hbuf : buf ≠ []) :
    (zeroReader.Read p).buf = List.replicate p.length 0 ∧
      (zeroReader.Read p).n = p.length ∧ (zeroReader.Read p).err = false ∧
      copyN true buf size size c [] = some (List.replicate size 0, c) ∧
      ∀ (cfg : Config) (dir name : String) (st st' : State), cfg.zeroes = true →
        writeFile cfg dir name st = .ok st' →
        ∃ fw, st'.written = st.written ++ [fw] ∧
          fw.content = List.replicate fw.size.toNat 0 := by
  refine ⟨by rw [zeroReader_Read_eq], by rw [zeroReader_Read_eq], by rw [zeroReader_Read_eq],
    by simpa using copyN_zero buf hbuf size size c [] (Nat.le_refl _), ?_⟩
  intro cfg dir name st st' hz hw
  by_cases hpos : 0 < wrapInt (cfg.maxFileSize - cfg.minFileSize)
  · obtain ⟨content, c', hlen, hzero, hwf⟩ := writeFile_of_pos cfg dir name st _ hpos rfl
    rw [hwf] at hw
    injection hw with hw
    subst hw
    refine ⟨FileWrite.mk dir name _ content, rfl, ?_⟩
    show content = _
    rw [← hlen]
    exact hzero hz
  · rw [writeFile_panics cfg dir name st (by omega)] at hw
    cases hw

theorem zeroReader_fills_with_zero_witness :
    (zeroReader.Read [5, 6, 7]).buf = List.replicate [5, 6, 7].length 0 ∧
      (zeroReader.Read [5, 6, 7]).n = [5, 6, 7].length ∧
      (zeroReader.Read [5, 6, 7]).err = false ∧
      copyN true [9, 9] 5 5 ⟨fun i => i, 0⟩ [] = some (List.replicate 5 0, ⟨fun i => i, 0⟩) ∧
      ∀ (cfg : Config) (dir name : String) (st st' : State), cfg.zeroes = true →
        writeFile cfg dir name st = .ok st' →
        ∃ fw, st'.written = st.written ++ [fw] ∧
          fw.content = List.replicate fw.size.toNat 0 :=
  zeroReader_fills_with_zero [5, 6, 7] [9, 9] 5 ⟨fun i => i, 0⟩ (by decide)

/-! ## randomString and fileName -/

theorem pattern_get {p : Nat} (h : p < 8) :
    ∃ source, pattern[p]? = some source ∧ 0 < source.length := by
  interval_cases p <;> exact ⟨_, rfl, by decide⟩

theorem randomStringLoop_ok :
    ∀ (k i p : Nat) (out : List Char) (r : Rand), p < 8 →
      ∃ out', randomStringLoop k i p out r = .ok (out', { r with pos := r.pos + k }) ∧
        out'.length = out.length := by
  intro k
  induction k with
  | zero => intro i p out r _; exact ⟨out, rfl, rfl⟩
  | succ k ih =>
    intro i p out r hp
    obtain ⟨source, hs, hlen⟩ := pattern_get hp
    have hj : r.draws r.pos % ((source.length : Nat) : Int).toNat < source.length := by
      simpa using Nat.mod_lt (r.draws r.pos) hlen
    obtain ⟨c, hc⟩ : ∃ c, source[r.draws r.pos % ((source.length : Nat) : Int).toNat]? = some c :=
      ⟨_, List.getElem?_eq_getElem hj⟩
    obtain ⟨out', ho, hl⟩ := ih (i + 1) ((p + 1) % pattern.length) (out.set i c)
      { r with pos := r.pos + 1 } (Nat.mod_lt _ (by decide))
    refine ⟨out', ?_, by rw [hl, List.length_set]⟩
    unfold randomStringLoop
    simp only [hs]
    rw [Intn_pos (by omega)]
    simp only [Result.bind, hc]
    rw [ho]
    simp only [Nat.add_assoc, Nat.add_comm 1 k]

theorem randomString_ok (n : Int) (r : Rand) (h : 0 ≤ n) :
    ∃ s, randomString n r = .ok (s, { r with pos := r.pos + n.toNat }) ∧
      (s.length : Int) = n := by
  obtain ⟨out', ho, hl⟩ := randomStringLoop_ok n.toNat 0 0
    (List.replicate n.toNat (Char.ofNat 0)) r (by decide)
  refine ⟨String.mk out', ?_, ?_⟩
  · unfold randomString
    rw [if_neg (by omega), ho]
    rfl
  · show ((out'.length : Nat) : Int) = n
    rw [hl, List.length_replicate]
    omega

theorem randomString_neg (n : Int) (r : Rand) (h : n < 0) : randomString n r = .panic := by
  unfold randomString
  rw [if_pos h]

/-- What `fileName` does when its budget is not spent: it returns a name that
was not in the set, of a length in `[min, max)`, and records exactly that name. -/
theorem fileName_spec (cfg : Config) (hmin : 0 ≤ cfg.minFileNameLength)
    (hlt : cfg.minFileNameLength < cfg.maxFileNameLength)
    (hmax : inInt64 cfg.maxFileNameLength) :
    ∀ (nf : Nat) (st : State),
      fileName cfg nf st = .nameLoop ∨
      ∃ name r, fileName cfg nf st =
          .ok (name, { st with rand := r, fileNames := name :: st.fileNames }) ∧
        name ∉ st.fileNames ∧ r.draws = st.rand.draws ∧
        cfg.minFileNameLength ≤ name.length ∧ (name.length : Int) < cfg.maxFileNameLength := by
  have hw : wrapInt (cfg.maxFileNameLength - cfg.minFileNameLength) =
      cfg.maxFileNameLength - cfg.minFileNameLength := by
    apply wrapInt_eq
    unfold inInt64 at *
    omega
  intro nf
  induction nf with
  | zero => intro st; left; rfl
  | succ nf ih =>
    intro st
    have hk := mod_toNat_lt (st.rand.draws st.rand.pos)
      (show 0 < cfg.maxFileNameLength - cfg.minFileNameLength by omega)
    have hs : wrapInt ((st.rand.draws st.rand.pos %
        (cfg.maxFileNameLength - cfg.minFileNameLength).toNat : Nat) + cfg.minFileNameLength) =
        (st.rand.draws st.rand.pos %
          (cfg.maxFileNameLength - cfg.minFileNameLength).toNat : Nat) +
          cfg.minFileNameLength := by
      apply wrapInt_eq
      unfold inInt64 at *
      omega
    obtain ⟨s, hrs, hlen⟩ := randomString_ok
      ((st.rand.draws st.rand.pos %
        (cfg.maxFileNameLength - cfg.minFileNameLength).toNat : Nat) + cfg.minFileNameLength)
      { st.rand with pos := st.rand.pos + 1 } (by omega)
    have hunf : fileName cfg (nf + 1) st =
        if s ∈ st.fileNames then fileName cfg nf { st with rand :=
          { draws := st.rand.draws, pos := st.rand.pos + 1 + ((st.rand.draws st.rand.pos %
            (cfg.maxFileNameLength - cfg.minFileNameLength).toNat : Nat) +
            cfg.minFileNameLength).toNat } }
        else .ok (s, { st with rand :=
          { draws := st.rand.draws, pos := st.rand.pos + 1 + ((st.rand.draws st.rand.pos %
            (cfg.maxFileNameLength - cfg.minFileNameLength).toNat : Nat) +
            cfg.minFileNameLength).toNat }, fileNames := s :: st.fileNames }) := by
      rw [fileName, hw, Intn_pos (by omega)]
      simp only [Result.bind]
      rw [hs, hrs]
    rw [hunf]
    by_cases hmem : s ∈ st.fileNames
    · rw [if_pos hmem]
      rcases ih { st with rand :=
          { draws := st.rand.draws, pos := st.rand.pos + 1 + ((st.rand.draws st.rand.pos %
            (cfg.maxFileNameLength - cfg.minFileNameLength).toNat : Nat) +
            cfg.minFileNameLength).toNat } } with h | ⟨name, r, h1, h2, h3, h4, h5⟩
      · left; exact h
      · right; exact ⟨name, r, h1, h2, h3, h4, h5⟩
    · rw [if_neg hmem]
      right
      exact ⟨s, _, rfl, hmem, rfl, by omega, by omega⟩

/-- Claim C6 (name length bound).  When `0 <= min-name-length < max-name-length`,
`fileName` never panics: either its retry budget is spent or it returns a name
whose length `L` satisfies `min-name-length <= L < max-name-length`; and
`randomString(n)` returns a string of exactly `n` bytes for every `n >= 0`. -/
theorem fileName_length_bound (cfg : Config) (nf : Nat) (st : State)
    (hmin : 0 ≤ cfg.minFileNameLength)
    (hlt : cfg.minFileNameLength < cfg.maxFileNameLength)
    (hmax : inInt64 cfg.maxFileNameLength) :
    (fileName cfg nf st = .nameLoop ∨
      ∃ name st', fileName cfg nf st = .ok (name, st') ∧
        cfg.minFileNameLength ≤ name.length ∧ (name.length : Int) < cfg.maxFileNameLength) ∧
    (∀ (n : Int) (r : Rand), 0 ≤ n →
      ∃ s r', randomString n r = .ok (s, r') ∧ (s.length : Int) = n) := by
  constructor
  · rcases fileName_spec cfg hmin hlt hmax nf st with h | ⟨name, r, h1, -, -, h4, h5⟩
    · left; exact h
    · right; exact ⟨name, _, h1, h4, h5⟩
  · intro n r hn
    obtain ⟨s, hs, hl⟩ := randomString_ok n r hn
    exact ⟨s, _, hs, hl⟩

theorem fileName_length_bound_witness :
    (fileName defaultConfig 3 (State.start (fun i => 3 * i + 1) id) = .nameLoop ∨
      ∃ name st', fileName defaultConfig 3 (State.start (fun i => 3 * i + 1) id) =
          .ok (name, st') ∧
        (4 : Int) ≤ name.length ∧ (name.length : Int) < 12) ∧
    (∀ (n : Int) (r : Rand), 0 ≤ n →
      ∃ s r', randomString n r = .ok (s, r') ∧ (s.length : Int) = n) :=
  fileName_length_bound defaultConfig 3 (State.start (fun i => 3 * i + 1) id)
    (by decide) (by decide) (by decide)

/-! ## Flattening -/

mutual
theorem list_eq_preorder : ∀ (d : Dir) (path : String) (out : List String),
    d.list path out = out ++ d.preorder path
  | .mk name _ children, path, out => by
    rw [Dir.list, Dir.preorder, listChildren_eq_preorder children]
    simp
theorem listChildren_eq_preorder : ∀ (cs : List Dir) (dirPath : String) (out : List String),
    listChildren cs dirPath out = out ++ preorderChildren cs dirPath
  | [], _, _ => by simp [listChildren, preorderChildren]
  | c :: cs, dirPath, out => by
    rw [listChildren, preorderChildren, list_eq_preorder c, listChildren_eq_preorder cs]
    simp
end

mutual
theorem preorder_length : ∀ (d : Dir) (path : String), (d.preorder path).length = d.size
  | .mk _ _ children, path => by
    rw [Dir.preorder, Dir.size, List.length_cons, preorderChildren_length children]
    omega
theorem preorderChildren_length : ∀ (cs : List Dir) (dirPath : String),
    (preorderChildren cs dirPath).length = sizeChildren cs
  | [], _ => by simp [preorderChildren, sizeChildren]
  | c :: cs, dirPath => by
    rw [preorderChildren, sizeChildren, List.length_append, preorder_length c,
      preorderChildren_length cs]
end

theorem preorderChildren_eq_flatten (cs : List Dir) (dirPath : String) :
    preorderChildren cs dirPath = (cs.map fun c => c.list dirPath []).flatten := by
  induction cs with
  | nil => simp [preorderChildren]
  | cons c cs ih => simp [preorderChildren, ih, list_eq_preorder]

/-- Claim C10 (flattening is a pre-order traversal).  For every tree `d`, path and
list `out`, `d.list(path, out)` is `out` followed by `Join(path, d.name)` and
then by the flattenings of the children under that path, concatenated in
children order; this is the pre-order listing of the specification, and the
number of new entries is the number of nodes of the subtree at `d`. -/
theorem list_is_preorder (d : Dir) (path : String) (out : List String) :
    d.list path out =
        out ++ filepathJoin path d.name ::
          (d.children.map fun c => c.list (filepathJoin path d.name) []).flatten ∧
      d.list path out = out ++ d.preorder path ∧
      (d.list path out).length = out.length + d.size := by
  refine ⟨?_, list_eq_preorder d path out, ?_⟩
  · rw [list_eq_preorder]
    cases d with
    | mk name depth children =>
      rw [Dir.preorder, preorderChildren_eq_flatten]
      rfl
  · rw [list_eq_preorder, List.length_append, preorder_length]

/-! ## createDirectories -/

theorem createDirectories_builds (cfg : Config) (nf : Nat) :
    ∀ (fuel : Nat) (d : Dir) (st : State) (d' : Dir) (st' : State),
      createDirectories cfg nf fuel d st = .ok (d', st') → Builds cfg nf d st d' st' := by
  intro fuel
  induction fuel with
  | zero => intro d st d' st' h; simp [createDirectories] at h
  | succ fuel ih =>
    intro d st d' st' h
    rw [createDirectories] at h
    split at h
    · rename_i hlt
      rw [bind_eq_ok] at h
      obtain ⟨⟨name, st1⟩, hn, h⟩ := h
      rw [bind_eq_ok] at h
      obtain ⟨⟨c, r⟩, hr, h⟩ := h
      simp only at h hr
      split at h
      · split at h
        · rename_i hd
          rw [bind_eq_ok] at h
          obtain ⟨⟨sub, st4⟩, hsub, h⟩ := h
          exact Builds.descend d st name st1 r sub st4 d' st' hlt hn hr hd
            (ih _ _ _ _ hsub) (ih _ _ _ _ h)
        · rename_i hd
          exact Builds.next d st name st1 0 r d' st' hlt hn hr ⟨by decide, fun _ => hd⟩
            (ih _ _ _ _ h)
      · injection h with h
        injection h with h1 h2
        subst h1 h2
        exact Builds.stop d st name st1 r hlt hn hr
      · rename_i h0 h1
        exact Builds.next d st name st1 c r d' st' hlt hn hr
          ⟨fun e => h1 e, fun e => absurd e h0⟩ (ih _ _ _ _ h)
    · rename_i hlt
      injection h with h
      injection h with h1 h2
      subst h1 h2
      exact Builds.done d st hlt

/-! ## What fileName leaves behind -/

theorem fileName_ok (cfg : Config) :
    ∀ (nf : Nat) (st : State) (name : String) (st' : State),
      fileName cfg nf st = .ok (name, st') →
      name ∉ st.fileNames ∧
        ∃ r, st' = { st with rand := r, fileNames := name :: st.fileNames } := by
  intro nf
  induction nf with
  | zero => intro st name st' h; simp [fileName] at h
  | succ nf ih =>
    intro st name st' h
    rw [fileName, bind_eq_ok] at h
    obtain ⟨⟨k, r1⟩, -, h⟩ := h
    rw [bind_eq_ok] at h
    obtain ⟨⟨s, r2⟩, -, h⟩ := h
    simp only at h
    split at h
    · obtain ⟨h1, r, h2⟩ := ih _ _ _ h
      exact ⟨h1, r, h2⟩
    · rename_i hmem
      injection h with h
      injection h with h1 h2
      subst h1
      exact ⟨hmem, r2, h2.symm⟩

/-! ## Trees -/

theorem namesChildren_append (cs : List Dir) (c : Dir) :
    namesChildren (cs ++ [c]) = namesChildren cs ++ (c.name :: c.descNames) := by
  induction cs with
  | nil => simp [namesChildren]
  | cons x xs ih => simp [namesChildren, ih]

theorem depthsChildren_append (cs : List Dir) (c : Dir) :
    depthsChildren (cs ++ [c]) = depthsChildren cs ++ (c.depth :: c.descDepths) := by
  induction cs with
  | nil => simp [depthsChildren]
  | cons x xs ih => simp [depthsChildren, ih]

theorem sizeChildren_append (cs : List Dir) (c : Dir) :
    sizeChildren (cs ++ [c]) = sizeChildren cs + c.size := by
  induction cs with
  | nil => simp [sizeChildren]
  | cons x xs ih => simp [sizeChildren, ih]; omega

theorem newChild_name (d : Dir) (name : String) : (newChild d name).name = name := rfl

theorem newChild_depth (d : Dir) (name : String) : (newChild d name).depth = d.depth + 1 := rfl

theorem newChild_descNames (d : Dir) (name : String) : (newChild d name).descNames = [] := rfl

theorem newChild_descDepths (d : Dir) (name : String) : (newChild d name).descDepths = [] := rfl

theorem newChild_size (d : Dir) (name : String) : (newChild d name).size = 1 := rfl

theorem addChild_name (d c : Dir) : (d.addChild c).name = d.name := by
  cases d; rfl

theorem addChild_depth (d c : Dir) : (d.addChild c).depth = d.depth := by
  cases d; rfl

theorem addChild_descNames (d c : Dir) :
    (d.addChild c).descNames = d.descNames ++ (c.name :: c.descNames) := by
  cases d with
  | mk n k cs => simp [Dir.addChild, Dir.descNames, namesChildren_append]

theorem addChild_descDepths (d c : Dir) :
    (d.addChild c).descDepths = d.descDepths ++ (c.depth :: c.descDepths) := by
  cases d with
  | mk n k cs => simp [Dir.addChild, Dir.descDepths, depthsChildren_append]

theorem addChild_size (d c : Dir) : (d.addChild c).size = d.size + c.size := by
  cases d with
  | mk n k cs => simp [Dir.addChild, Dir.size, sizeChildren_append]; omega

mutual
theorem size_eq_descNames : ∀ d : Dir, d.size = 1 + d.descNames.length
  | .mk _ _ cs => by rw [Dir.size, Dir.descNames, sizeChildren_eq_names cs]
theorem sizeChildren_eq_names : ∀ cs : List Dir, sizeChildren cs = (namesChildren cs).length
  | [] => by simp [sizeChildren, namesChildren]
  | c :: cs => by
    rw [sizeChildren, namesChildren, size_eq_descNames c, sizeChildren_eq_names cs]
    simp only [List.length_append, List.length_cons]
    omega
end

/-! ## Invariants of createDirectories -/

/-- What a returning call of `createDirectories` changes: the names it
allocated are put in front of `fileNames` and, in allocation order, behind the
names already below `d`; `totalDirectories` grows by their number and stays
within the target; nothing else moves. -/
theorem Builds.frame {cfg : Config} {nf : Nat} {d d' : Dir} {st st' : State}
    (h : Builds cfg nf d st d' st') :
    d'.name = d.name ∧ d'.depth = d.depth ∧
      st'.directoriesToCreate = st.directoriesToCreate ∧ st'.crypt = st.crypt ∧
      st'.written = st.written ∧ st'.totalSize = st.totalSize ∧
      ∃ added : List String,
        st'.fileNames = added ++ st.fileNames ∧
        d'.descNames = d.descNames ++ added.reverse ∧
        st'.totalDirectories = st.totalDirectories + added.length ∧
        (st.fileNames.Nodup → st'.fileNames.Nodup) ∧
        (st.totalDirectories ≤ st.directoriesToCreate →
          st'.totalDirectories ≤ st.directoriesToCreate) := by
  induction h with
  | done d st h =>
    exact ⟨rfl, rfl, rfl, rfl, rfl, rfl, [], by simp, by simp, by simp, id, id⟩
  | stop d st name st1 r h hn hr =>
    obtain ⟨hmem, r1, rfl⟩ := fileName_ok cfg nf st name st1 hn
    refine ⟨addChild_name _ _, addChild_depth _ _, rfl, rfl, rfl, rfl, [name], by simp [counted],
      by simp [addChild_descNames, newChild_name, newChild_descNames],
      by simp [counted], ?_, ?_⟩
    · intro hnd; exact List.nodup_cons.mpr ⟨hmem, hnd⟩
    · intro _; simp only [counted]; omega
  | descend d st name st1 r sub st4 d' st' h hn hr hd hsub hrest ih1 ih2 =>
    obtain ⟨hmem, r1, rfl⟩ := fileName_ok cfg nf st name st1 hn
    obtain ⟨n1, k1, t1, c1, w1, s1, a1, f1, dn1, td1, nd1, le1⟩ := ih1
    obtain ⟨n2, k2, t2, c2, w2, s2, a2, f2, dn2, td2, nd2, le2⟩ := ih2
    simp only [counted, newChild_name, newChild_depth, newChild_descNames,
      List.nil_append] at n1 k1 t1 c1 w1 s1 f1 dn1 td1 nd1 le1
    rw [addChild_name] at n2
    rw [addChild_depth] at k2
    rw [addChild_descNames, n1, dn1] at dn2
    refine ⟨n2, k2, by rw [t2, t1], by rw [c2, c1], by rw [w2, w1], by rw [s2, s1],
      a2 ++ a1 ++ [name], ?_, ?_, ?_, ?_, ?_⟩
    · rw [f2, f1]; simp
    · rw [dn2]; simp
    · rw [td2, td1]; simp only [List.length_append, List.length_cons, List.length_nil]; omega
    · intro hnd; exact nd2 (nd1 (List.nodup_cons.mpr ⟨hmem, hnd⟩))
    · intro hle; rw [t1] at le2; exact le2 (le1 (by omega))
  | next d st name st1 c r d' st' h hn hr hc hrest ih =>
    obtain ⟨hmem, r1, rfl⟩ := fileName_ok cfg nf st name st1 hn
    obtain ⟨n2, k2, t2, c2, w2, s2, a2, f2, dn2, td2, nd2, le2⟩ := ih
    simp only [counted] at t2 c2 w2 s2 f2 td2 nd2 le2
    rw [addChild_name] at n2
    rw [addChild_depth] at k2
    rw [addChild_descNames] at dn2
    simp only [newChild_name, newChild_descNames] at dn2
    refine ⟨n2, k2, t2, c2, w2, s2, a2 ++ [name], ?_, ?_, ?_, ?_, ?_⟩
    · rw [f2]; simp
    · rw [dn2]; simp
    · rw [td2]; simp only [List.length_append, List.length_cons, List.length_nil]; omega
    · intro hnd; exact nd2 (List.nodup_cons.mpr ⟨hmem, hnd⟩)
    · intro hle; exact le2 (by omega)

/-- The depth fields of the nodes a returning call of `createDirectories` on
`d` creates: each is more than `d.depth` and at most one more than the larger
of `d.depth` and `max-depth`. -/
theorem Builds.depths {cfg : Config} {nf : Nat} {d d' : Dir} {st st' : State}
    (h : Builds cfg nf d st d' st') :
    ∃ nd : List Int, d'.descDepths = d.descDepths ++ nd ∧
      ∀ x ∈ nd, d.depth + 1 ≤ x ∧ x ≤ max d.depth cfg.maxDepth + 1 := by
  induction h with
  | done d st h => exact ⟨[], by simp, by simp⟩
  | stop d st name st1 r h hn hr =>
    refine ⟨[d.depth + 1], by simp [addChild_descDepths, newChild_depth, newChild_descDepths], ?_⟩
    intro x hx
    simp only [List.mem_singleton] at hx
    subst hx
    exact ⟨le_refl _, by have := le_max_left d.depth cfg.maxDepth; omega⟩
  | descend d st name st1 r sub st4 d' st' h hn hr hd hsub hrest ih1 ih2 =>
    obtain ⟨nd1, e1, b1⟩ := ih1
    obtain ⟨nd2, e2, b2⟩ := ih2
    have hsd : sub.depth = d.depth + 1 := by
      rw [(Builds.frame hsub).2.1]; rfl
    simp only [newChild_depth, newChild_descDepths, List.nil_append] at e1 b1
    rw [addChild_descDepths, hsd, e1] at e2
    rw [addChild_depth] at b2
    refine ⟨((d.depth + 1) :: nd1) ++ nd2, by rw [e2]; simp, ?_⟩
    intro x hx
    have hm : max d.depth cfg.maxDepth = cfg.maxDepth := max_eq_right (le_of_lt hd)
    have hm1 : max (d.depth + 1) cfg.maxDepth = cfg.maxDepth := max_eq_right (by omega)
    rw [hm]
    rw [hm] at b2
    rw [hm1] at b1
    rcases List.mem_append.mp hx with hx | hx
    · rcases List.mem_cons.mp hx with hx | hx
      · subst hx; omega
      · have := b1 x hx; omega
    · exact b2 x hx
  | next d st name st1 c r d' st' h hn hr hc hrest ih =>
    obtain ⟨nd2, e2, b2⟩ := ih
    rw [addChild_descDepths] at e2
    rw [addChild_depth] at b2
    simp only [newChild_depth, newChild_descDepths] at e2
    refine ⟨(d.depth + 1) :: nd2, by rw [e2]; simp, ?_⟩
    intro x hx
    rcases List.mem_cons.mp hx with hx | hx
    · subst hx
      exact ⟨le_refl _, by have := le_max_left d.depth cfg.maxDepth; omega⟩
    · exact b2 x hx

theorem Builds.toExtends {cfg : Config} {nf : Nat} {d d' : Dir} {st st' : State}
    (h : Builds cfg nf d st d' st') : Extends cfg d st d' st' := by
  obtain ⟨h1, h2, h3, h4, h5, h6, h7⟩ := Builds.frame h
  exact ⟨h1, h2, h3, h4, h5, h6, h7, Builds.depths h⟩

theorem Extends.refl (cfg : Config) (d : Dir) (st : State) : Extends cfg d st d st :=
  ⟨rfl, rfl, rfl, rfl, rfl, rfl, ⟨[], by simp, by simp, by simp, id, id⟩, ⟨[], by simp, by simp⟩⟩

theorem Extends.trans {cfg : Config} {d d1 d2 : Dir} {st st1 st2 : State}
    (h1 : Extends cfg d st d1 st1) (h2 : Extends cfg d1 st1 d2 st2) :
    Extends cfg d st d2 st2 := by
  obtain ⟨n1, k1, t1, c1, w1, s1, ⟨a1, f1, dn1, td1, nd1, le1⟩, ⟨x1, e1, b1⟩⟩ := h1
  obtain ⟨n2, k2, t2, c2, w2, s2, ⟨a2, f2, dn2, td2, nd2, le2⟩, ⟨x2, e2, b2⟩⟩ := h2
  refine ⟨by rw [n2, n1], by rw [k2, k1], by rw [t2, t1], by rw [c2, c1], by rw [w2, w1],
    by rw [s2, s1], ⟨a2 ++ a1, ?_, ?_, ?_, ?_, ?_⟩, ⟨x1 ++ x2, ?_, ?_⟩⟩
  · rw [f2, f1]; simp
  · rw [dn2, dn1]; simp
  · rw [td2, td1]; simp only [List.length_append]; omega
  · exact fun h => nd2 (nd1 h)
  · intro h; rw [t1] at le2; exact le2 (le1 h)
  · rw [e2, e1]; simp
  · intro x hx
    rw [k1] at b2
    rcases List.mem_append.mp hx with hx | hx
    · exact b1 x hx
    · exact b2 x hx

theorem driverLoop_extends (cfg : Config) (nf cf : Nat) :
    ∀ (fuel : Nat) (root : Dir) (st : State) (root' : Dir) (st' : State),
      driverLoop cfg nf cf fuel root st = .ok (root', st') →
      Extends cfg root st root' st' ∧ ¬ st'.totalDirectories < st'.directoriesToCreate := by
  intro fuel
  induction fuel with
  | zero => intro root st root' st' h; simp [driverLoop] at h
  | succ fuel ih =>
    intro root st root' st' h
    rw [driverLoop] at h
    split at h
    · rw [bind_eq_ok] at h
      obtain ⟨⟨r1, s1⟩, hc, h⟩ := h
      obtain ⟨he, hdone⟩ := ih _ _ _ _ h
      exact ⟨(createDirectories_builds cfg nf cf _ _ _ _ hc).toExtends.trans he, hdone⟩
    · rename_i hlt
      injection h with h
      injection h with h1 h2
      subst h1 h2
      exact ⟨Extends.refl cfg _ _, hlt⟩

/-! ## The file loop -/

theorem writeFile_ok (cfg : Config) (dir name : String) (st st' : State)
    (h : writeFile cfg dir name st = .ok st') :
    ∃ (j : Nat) (content : List Nat) (c' : Rand) (r' : Rand),
      0 < wrapInt (cfg.maxFileSize - cfg.minFileSize) ∧
      (j : Int) < wrapInt (cfg.maxFileSize - cfg.minFileSize) ∧
      content.length = (wrapInt (j + cfg.minFileSize)).toNat ∧
      (cfg.zeroes = true → content = List.replicate content.length 0) ∧
      st' = { st with
        rand := r',
        totalSize := wrapInt (st.totalSize + wrapInt (j + cfg.minFileSize)),
        crypt := c',
        written := st.written ++
          [FileWrite.mk dir name (wrapInt (j + cfg.minFileSize)) content] } := by
  by_cases hpos : 0 < wrapInt (cfg.maxFileSize - cfg.minFileSize)
  · obtain ⟨content, c', hlen, hzero, hwf⟩ := writeFile_of_pos cfg dir name st _ hpos rfl
    rw [hwf] at h
    injection h with h
    exact ⟨_, content, c', _, hpos, mod_toNat_lt _ hpos, hlen, hzero, h.symm⟩
  · rw [writeFile_panics cfg dir name st (by omega)] at h
    cases h

/-- What a returning run of the file loop leaves: `k` files appended to
`written`, their names put in front of `fileNames`, the directory counters
untouched. -/
theorem fileLoop_ok (cfg : Config) (nf : Nat) (dirs : List String) :
    ∀ (k : Nat) (st st' : State), fileLoop cfg nf dirs k st = .ok st' →
      st'.directoriesToCreate = st.directoriesToCreate ∧
      st'.totalDirectories = st.totalDirectories ∧
      ∃ fws : List FileWrite,
        st'.written = st.written ++ fws ∧ fws.length = k ∧
        st'.fileNames = (fws.map FileWrite.name).reverse ++ st.fileNames ∧
        (st.fileNames.Nodup → st'.fileNames.Nodup) ∧
        ∀ fw ∈ fws, fw.dir ∈ dirs ∧
          0 < wrapInt (cfg.maxFileSize - cfg.minFileSize) ∧
          (∃ j : Nat, (j : Int) < wrapInt (cfg.maxFileSize - cfg.minFileSize) ∧
            fw.size = wrapInt (j + cfg.minFileSize)) ∧
          fw.content.length = fw.size.toNat ∧
          (cfg.zeroes = true → fw.content = List.replicate fw.content.length 0) := by
  intro k
  induction k with
  | zero =>
    intro st st' h
    rw [fileLoop] at h
    injection h with h
    subst h
    exact ⟨rfl, rfl, [], by simp, rfl, by simp, id, by simp⟩
  | succ k ih =>
    intro st st' h
    rw [fileLoop, bind_eq_ok] at h
    obtain ⟨⟨j, r⟩, -, h⟩ := h
    simp only at h
    split at h
    · cases h
    · rename_i dir hdir
      rw [bind_eq_ok] at h
      obtain ⟨⟨name, s1⟩, hn, h⟩ := h
      rw [bind_eq_ok] at h
      obtain ⟨s2, hw, h⟩ := h
      obtain ⟨hmem, r1, rfl⟩ := fileName_ok cfg nf _ name s1 hn
      obtain ⟨jj, content, c', r', hpos, hlt, hlen, hzero, rfl⟩ := writeFile_ok cfg dir name _ s2 hw
      obtain ⟨t3, d3, fws, w3, l3, f3, nd3, p3⟩ := ih _ _ h
      simp only at t3 d3 w3 f3 nd3 hmem
      refine ⟨t3, d3, FileWrite.mk dir name (wrapInt (jj + cfg.minFileSize)) content :: fws, ?_,
        by simp [l3], ?_, ?_, ?_⟩
      · rw [w3]; simp
      · rw [f3]; simp
      · intro hnd; exact nd3 (List.nodup_cons.mpr ⟨hmem, hnd⟩)
      · intro fw hfw
        rcases List.mem_cons.mp hfw with e | e
        · subst e
          exact ⟨List.getElem?_mem hdir, hpos, ⟨jj, hlt, rfl⟩, hlen, hzero⟩
        · exact p3 fw e

/-! ## One round of main -/

/-- The state the hierarchy construction of a round starts from. -/
theorem iteration_ok (cfg : Config) (seed : Int → Nat → Nat) (nf fuel : Nat)
    (out : String) (st : State) (round : Round) (st' : State)
    (h : iteration cfg seed nf fuel out st = .ok (round, st')) :
    cfg.averageFilesPerDirectory ≠ 0 ∧
    ∃ st2 : State,
      driver cfg nf fuel (Dir.mk out 1 [])
        { st with
          rand := { draws := seed cfg.defaultSeed, pos := 0 },
          fileNames := [], totalSize := 0,
          directoriesToCreate :=
            wrapInt (Int.tdiv cfg.numberOfFiles cfg.averageFilesPerDirectory),
          totalDirectories := 0 } = .ok (round.root, st2) ∧
      round.dirs = round.root.list "" [] ∧
      fileLoop cfg nf round.dirs cfg.numberOfFiles.toNat st2 = .ok st' ∧
      round.files = st'.written.drop st2.written.length := by
  unfold iteration at h
  simp only at h
  split at h
  · cases h
  · rename_i hper
    rw [bind_eq_ok] at h
    obtain ⟨⟨root, st2⟩, hd, h⟩ := h
    rw [bind_eq_ok] at h
    obtain ⟨st3, hf, h⟩ := h
    injection h with h
    injection h with h1 h2
    subst h1 h2
    exact ⟨hper, st2, hd, rfl, hf, rfl⟩

theorem isOk_elim {α : Type} {x : Result α} (h : x.isOk = true) : ∃ a, x = .ok a := by
  cases x with
  | ok a => exact ⟨a, rfl⟩
  | panic => cases h
  | fatal => cases h
  | nameLoop => cases h
  | outOfFuel => cases h

/-- The tree and the counters at the end of a round: the names below the root
are the names allocated during construction, in order. -/
theorem iteration_tree (cfg : Config) (seed : Int → Nat → Nat) (nf fuel : Nat)
    (out : String) (st : State) (round : Round) (st' : State)
    (h : iteration cfg seed nf fuel out st = .ok (round, st')) :
    cfg.averageFilesPerDirectory ≠ 0 ∧
    round.dirs = round.root.list "" [] ∧
    round.root.name = out ∧ round.root.depth = 1 ∧
    st'.directoriesToCreate =
      wrapInt (Int.tdiv cfg.numberOfFiles cfg.averageFilesPerDirectory) ∧
    st'.totalDirectories = round.root.descNames.length ∧
    (0 ≤ st'.directoriesToCreate → st'.totalDirectories ≤ st'.directoriesToCreate) ∧
    ¬ st'.totalDirectories < st'.directoriesToCreate ∧
    (∀ x ∈ round.root.descDepths, 2 ≤ x ∧ x ≤ max 1 cfg.maxDepth + 1) ∧
    round.files.length = cfg.numberOfFiles.toNat ∧
    st'.fileNames.reverse = round.root.descNames ++ round.files.map FileWrite.name ∧
    st'.fileNames.Nodup ∧
    ∀ fw ∈ round.files, fw.dir ∈ round.dirs ∧
      0 < wrapInt (cfg.maxFileSize - cfg.minFileSize) ∧
      (∃ j : Nat, (j : Int) < wrapInt (cfg.maxFileSize - cfg.minFileSize) ∧
        fw.size = wrapInt (j + cfg.minFileSize)) ∧
      fw.content.length = fw.size.toNat ∧
      (cfg.zeroes = true → fw.content = List.replicate fw.content.length 0) := by
  obtain ⟨hper, st2, hd, hdirs, hf, hfiles⟩ := iteration_ok cfg seed nf fuel out st round st' h
  obtain ⟨⟨n1, k1, t1, c1, w1, s1, ⟨a1, f1, dn1, td1, nd1, le1⟩, ⟨x1, e1, b1⟩⟩, hdone⟩ :=
    driverLoop_extends cfg nf fuel fuel _ _ _ _ hd
  obtain ⟨t3, d3, fws, w3, l3, f3, nd3, p3⟩ := fileLoop_ok cfg nf round.dirs _ _ _ hf
  simp only [Dir.descNames, namesChildren, List.nil_append, List.append_nil, Dir.descDepths,
    depthsChildren, Dir.depth, Dir.name] at n1 k1 t1 f1 dn1 td1 nd1 le1 e1 b1
  have hfw : round.files = fws := by
    rw [hfiles, w3]; simp
  refine ⟨hper, hdirs, n1, k1, by rw [t3, t1], ?_, ?_, ?_, ?_, ?_, ?_, ?_, ?_⟩
  · rw [d3, td1, dn1]; simp
  · intro h0; rw [t3, d3, t1]; rw [t3, t1] at h0; exact le1 h0
  · rw [t3, d3]; exact hdone
  · intro x hx; rw [e1] at hx; have := b1 x hx; omega
  · rw [hfw, l3]
  · rw [f3, f1, dn1, hfw]; simp
  · exact nd3 (nd1 List.nodup_nil)
  · rw [hfw]; exact p3

/-! ## Count, depth, uniqueness -/

/-- Claim C5 (count bound).  For a non-negative file count and a positive
files-per-directory, a round that returns has set `directoriesToCreate` to
`file_count / files-per-directory`, has created `totalDirectories` nodes below
the root, and that number is at most the target.  At the level of one call: a
call of `createDirectories` that starts with `totalDirectories <=
directoriesToCreate` leaves the target unchanged, never decreases the counter,
ends with `totalDirectories <= directoriesToCreate`, and has added exactly as
many nodes as the counter grew by. -/
theorem count_bound (cfg : Config) (seed : Int → Nat → Nat) (nf fuel : Nat)
    (out : String) (st : State) (round : Round) (st' : State)
    (hn : 0 ≤ cfg.numberOfFiles) (hper : 0 < cfg.averageFilesPerDirectory)
    (hrange : inInt64 cfg.numberOfFiles)
    (h : iteration cfg seed nf fuel out st = .ok (round, st')) :
    st'.directoriesToCreate = cfg.numberOfFiles / cfg.averageFilesPerDirectory ∧
      (round.root.size : Int) - 1 = st'.totalDirectories ∧
      st'.totalDirectories ≤ cfg.numberOfFiles / cfg.averageFilesPerDirectory ∧
      ∀ (k : Nat) (d : Dir) (s : State) (d' : Dir) (s' : State),
        createDirectories cfg nf k d s = .ok (d', s') →
        s.totalDirectories ≤ s.directoriesToCreate →
        s'.directoriesToCreate = s.directoriesToCreate ∧
          s.totalDirectories ≤ s'.totalDirectories ∧
          s'.totalDirectories ≤ s'.directoriesToCreate ∧
          (d'.size : Int) - d.size = s'.totalDirectories - s.totalDirectories := by
  obtain ⟨-, -, -, -, ht, htot, hle, -⟩ := iteration_tree cfg seed nf fuel out st round st' h
  have hdiv : wrapInt (Int.tdiv cfg.numberOfFiles cfg.averageFilesPerDirectory) =
      cfg.numberOfFiles / cfg.averageFilesPerDirectory := by
    rw [Int.tdiv_eq_ediv hn (le_of_lt hper)]
    apply wrapInt_eq
    have h0 := Int.ediv_nonneg hn (le_of_lt hper)
    have h1 := Int.ediv_le_self cfg.averageFilesPerDirectory hn
    unfold inInt64 at *
    omega
  rw [hdiv] at ht
  refine ⟨ht, ?_, ?_, ?_⟩
  · rw [size_eq_descNames, htot]; push_cast; omega
  · rw [← ht]
    exact hle (by rw [ht]; exact Int.ediv_nonneg hn (le_of_lt hper))
  · intro k d s d' s' hc hs
    obtain ⟨-, -, t1, -, -, -, a1, -, dn1, td1, -, le1⟩ :=
      (createDirectories_builds cfg nf k d s d' s' hc).frame
    refine ⟨t1, by omega, by rw [t1]; exact le1 hs, ?_⟩
    rw [size_eq_descNames d', size_eq_descNames d, dn1, td1]
    simp only [List.length_append, List.length_reverse]
    push_cast
    omega

theorem count_bound_witness :
    ∃ round st',
      iteration { defaultConfig with numberOfFiles := 7, averageFilesPerDirectory := 2 }
        (fun s i => 5 * i + s.toNat) 4 9 "out" (State.start id id) = .ok (round, st') ∧
      st'.directoriesToCreate = (7 : Int) / 2 ∧
      (round.root.size : Int) - 1 = st'.totalDirectories ∧
      st'.totalDirectories ≤ (7 : Int) / 2 := by
  obtain ⟨⟨round, st'⟩, h⟩ := isOk_elim (show (iteration
    { defaultConfig with numberOfFiles := 7, averageFilesPerDirectory := 2 }
    (fun s i => 5 * i + s.toNat) 4 9 "out" (State.start id id)).isOk = true by decide!)
  obtain ⟨h1, h2, h3, -⟩ := count_bound
    { defaultConfig with numberOfFiles := 7, averageFilesPerDirectory := 2 }
    (fun s i => 5 * i + s.toNat) 4 9 "out" (State.start id id) round st'
    (by decide) (by decide) (by decide) h
  exact ⟨round, st', h, h1, h2, h3⟩

/-- Claim C1 (depth bound), evaluated where it fails.  With `-n 1
-files-per-directory 1 -max-depth 1` the root (depth 1) gets a child of depth
2; with `-n 2 -files-per-directory 1 -max-depth 2` and a first branching draw
of 0 the hierarchy reaches depth 3.  The guard of `createDirectories` compares
the depth of the parent, not of the new node, with `max-depth`. -/
theorem depth_exceeds_maxDepth :
    (iteration depthOneConfig (fun _ i => i) 1 2 "out" (State.start id id)).bind
        (fun p => .ok p.1.root.allDepths) = .ok [1, 2] ∧
      (iteration depthTwoConfig (fun _ i => i / 6) 1 3 "out" (State.start id id)).bind
        (fun p => .ok p.1.root.allDepths) = .ok [1, 2, 3] := by
  decide!

/-- Claim C3 (name uniqueness).  In a round that returns, the names given to the
directories below the root followed by the names given to the files are, in
allocation order, exactly the names `fileNames` holds at the end, and no two
of them are equal.  For a single call: the name `fileName` returns was not in
`fileNames` immediately before the call, and is in it afterwards. -/
theorem names_unique (cfg : Config) (seed : Int → Nat → Nat) (nf fuel : Nat)
    (out : String) (st : State) (round : Round) (st' : State)
    (h : iteration cfg seed nf fuel out st = .ok (round, st')) :
    (round.root.descNames ++ round.files.map FileWrite.name).Nodup ∧
      st'.fileNames.reverse = round.root.descNames ++ round.files.map FileWrite.name ∧
      round.root.descNames.length + 1 = round.dirs.length ∧
      ∀ (k : Nat) (s : State) (name : String) (s' : State),
        fileName cfg k s = .ok (name, s') →
        name ∉ s.fileNames ∧ s'.fileNames = name :: s.fileNames := by
  obtain ⟨-, hdirs, -, -, -, -, -, -, -, -, hrev, hnd, -⟩ :=
    iteration_tree cfg seed nf fuel out st round st' h
  refine ⟨?_, hrev, ?_, ?_⟩
  · rw [← hrev]; exact List.nodup_reverse.mpr hnd
  · rw [hdirs, list_eq_preorder, List.nil_append, preorder_length, size_eq_descNames]
    omega
  · intro k s name s' hk
    obtain ⟨hmem, r, rfl⟩ := fileName_ok cfg k s name s' hk
    exact ⟨hmem, rfl⟩

theorem names_unique_witness :
    ∃ round st',
      iteration shortNamesConfig (fun s i => 3 * i + s.toNat) 5 9 "out" (State.start id id) =
        .ok (round, st') ∧
      (round.root.descNames ++ round.files.map FileWrite.name).Nodup ∧
      st'.fileNames.reverse = round.root.descNames ++ round.files.map FileWrite.name := by
  obtain ⟨⟨round, st'⟩, h⟩ := isOk_elim (show (iteration shortNamesConfig
    (fun s i => 3 * i + s.toNat) 5 9 "out" (State.start id id)).isOk = true by decide!)
  obtain ⟨h1, h2, -⟩ := names_unique shortNamesConfig
    (fun s i => 3 * i + s.toNat) 5 9 "out" (State.start id id) round st' h
  exact ⟨round, st', h, h1, h2⟩

/-- The names allocated in a round with names of one or two characters, in
allocation order: three directories, then six files. -/
theorem names_unique_sample :
    (iteration shortNamesConfig (fun s i => 3 * i + s.toNat) 5 9 "out"
        (State.start id id)).bind
      (fun p => .ok (p.1.root.descNames ++ p.1.files.map FileWrite.name)) =
      .ok ["gi", "vu", "ke", "c", "r", "g", "v", "k", "y"] := by
  decide!

/-! ## Independence of a round from the state it starts in -/

theorem RelRes.bind {α β : Type} {R : α → α → Prop} {S : β → β → Prop}
    {x y : Result α} {f g : α → Result β} (h : RelRes R x y)
    (hfg : ∀ a b, R a b → RelRes S (f a) (g b)) : RelRes S (x.bind f) (y.bind g) := by
  cases x <;> cases y <;> simp only [RelRes] at h <;>
    first
      | exact hfg _ _ h
      | exact h

theorem RelRes.mono {α : Type} {R S : α → α → Prop} {x y : Result α} (h : RelRes R x y)
    (hRS : ∀ a b, R a b → S a b) : RelRes S x y := by
  cases x <;> cases y <;> simp only [RelRes] at h ⊢
  exact hRS _ _ h

theorem RelRes.refl_eq {α : Type} (x : Result α) : RelRes Eq x x := by
  cases x <;> simp [RelRes]

theorem fileName_agree (cfg : Config) :
    ∀ (nf : Nat) (s t : State), Agree s t →
      RelRes (fun p q => p.1 = q.1 ∧ Agree p.2 q.2 ∧ p.2.written = s.written ∧
          q.2.written = t.written)
        (fileName cfg nf s) (fileName cfg nf t) := by
  intro nf
  induction nf with
  | zero => intro s t _; simp [fileName, RelRes]
  | succ nf ih =>
    intro s t h
    obtain ⟨hr, hd, ht, hf⟩ := h
    rw [fileName, fileName, hr]
    refine RelRes.bind (RelRes.refl_eq _) ?_
    rintro kr _ rfl
    refine RelRes.bind (RelRes.refl_eq _) ?_
    rintro nr _ rfl
    by_cases hmem : nr.1 ∈ s.fileNames
    · rw [if_pos hmem, if_pos (hf ▸ hmem)]
      exact ih { s with rand := nr.2 } { t with rand := nr.2 } ⟨rfl, hd, ht, hf⟩
    · rw [if_neg hmem, if_neg (hf ▸ hmem)]
      exact ⟨rfl, ⟨rfl, hd, ht, by simp [hf]⟩, rfl, rfl⟩

theorem createDirectories_agree (cfg : Config) (nf : Nat) :
    ∀ (fuel : Nat) (d : Dir) (s t : State), Agree s t →
      RelRes (fun p q => p.1 = q.1 ∧ Agree p.2 q.2)
        (createDirectories cfg nf fuel d s) (createDirectories cfg nf fuel d t) := by
  intro fuel
  induction fuel with
  | zero => intro d s t _; simp [createDirectories, RelRes]
  | succ fuel ih =>
    intro d s t h
    rw [createDirectories, createDirectories, h.2.2.1, h.2.1]
    split
    · refine RelRes.bind (fileName_agree cfg nf s t h) ?_
      rintro ⟨n1, s1⟩ ⟨n2, t1⟩ ⟨hn, ⟨hr, hd, ht, hf⟩, -, -⟩
      simp only at hn hr hd ht hf
      subst hn
      simp only
      rw [hr]
      refine RelRes.bind (RelRes.refl_eq _) ?_
      rintro cr _ rfl
      have hag : Agree { s1 with totalDirectories := s1.totalDirectories + 1, rand := cr.2 }
          { t1 with totalDirectories := t1.totalDirectories + 1, rand := cr.2 } :=
        ⟨rfl, hd, by simp [ht], hf⟩
      split
      · split
        · refine RelRes.bind (ih _ _ _ hag) ?_
          rintro ⟨d1, s4⟩ ⟨d2, t4⟩ ⟨hd1, hag4⟩
          simp only at hd1 hag4
          subst hd1
          exact ih _ _ _ hag4
        · exact ih _ _ _ hag
      · exact ⟨rfl, hag⟩
      · exact ih _ _ _ hag
    · exact ⟨rfl, h⟩

theorem driverLoop_agree (cfg : Config) (nf cf : Nat) :
    ∀ (fuel : Nat) (d : Dir) (s t : State), Agree s t →
      RelRes (fun p q => p.1 = q.1 ∧ Agree p.2 q.2)
        (driverLoop cfg nf cf fuel d s) (driverLoop cfg nf cf fuel d t) := by
  intro fuel
  induction fuel with
  | zero => intro d s t _; simp [driverLoop, RelRes]
  | succ fuel ih =>
    intro d s t h
    rw [driverLoop, driverLoop, h.2.2.1, h.2.1]
    split
    · refine RelRes.bind (createDirectories_agree cfg nf cf d s t h) ?_
      rintro ⟨d1, s4⟩ ⟨d2, t4⟩ ⟨hd1, hag4⟩
      simp only at hd1 hag4
      subst hd1
      exact ih _ _ _ hag4
    · exact ⟨rfl, h⟩

theorem writeFile_agree (cfg : Config) (dir name : String) (s t : State) (h : Agree s t) :
    RelRes (fun s' t' => Agree s' t' ∧ ∃ fw fw', s'.written = s.written ++ [fw] ∧
        t'.written = t.written ++ [fw'] ∧ fw.triple = fw'.triple)
      (writeFile cfg dir name s) (writeFile cfg dir name t) := by
  by_cases hpos : 0 < wrapInt (cfg.maxFileSize - cfg.minFileSize)
  · obtain ⟨c1, k1, -, -, h1⟩ := writeFile_of_pos cfg dir name s _ hpos rfl
    obtain ⟨c2, k2, -, -, h2⟩ := writeFile_of_pos cfg dir name t _ hpos rfl
    rw [h1, h2]
    obtain ⟨hr, hd, ht, hf⟩ := h
    refine ⟨⟨by simp [hr], hd, ht, hf⟩, _, _, rfl, rfl, ?_⟩
    simp [FileWrite.triple, hr]
  · rw [writeFile_panics cfg dir name s (by omega), writeFile_panics cfg dir name t (by omega)]
    trivial

theorem fileLoop_agree (cfg : Config) (nf : Nat) (dirs : List String) :
    ∀ (k : Nat) (s t : State), Agree s t →
      RelRes (fun s' t' => Agree s' t' ∧ ∃ fs fs', s'.written = s.written ++ fs ∧
          t'.written = t.written ++ fs' ∧ fs.map FileWrite.triple = fs'.map FileWrite.triple)
        (fileLoop cfg nf dirs k s) (fileLoop cfg nf dirs k t) := by
  intro k
  induction k with
  | zero =>
    intro s t h
    exact ⟨h, [], [], by simp, by simp, rfl⟩
  | succ k ih =>
    intro s t h
    rw [fileLoop, fileLoop, h.1]
    refine RelRes.bind (RelRes.refl_eq _) ?_
    rintro jr _ rfl
    split
    · trivial
    · rename_i dir hdir
      have hag : Agree { s with rand := jr.2 } { t with rand := jr.2 } :=
        ⟨rfl, h.2.1, h.2.2.1, h.2.2.2⟩
      refine RelRes.bind (fileName_agree cfg nf _ _ hag) ?_
      rintro ⟨n1, s1⟩ ⟨n2, t1⟩ ⟨hn, hag1, hw1, hw2⟩
      simp only at hn hag1 hw1 hw2
      subst hn
      refine RelRes.bind (writeFile_agree cfg dir n1 s1 t1 hag1) ?_
      rintro s2 t2 ⟨hag2, fw, fw', hv1, hv2, htr⟩
      refine RelRes.mono (ih s2 t2 hag2) ?_
      rintro s3 t3 ⟨hag3, fs, fs', e1, e2, e3⟩
      refine ⟨hag3, fw :: fs, fw' :: fs', ?_, ?_, ?_⟩
      · rw [e1, hv1, hw1]; simp
      · rw [e2, hv2, hw2]; simp
      · simp [htr, e3]

theorem iteration_agree (cfg : Config) (seed : Int → Nat → Nat) (nf fuel : Nat)
    (out : String) (s t : State) :
    RelRes (fun p q => p.1.root = q.1.root ∧ p.1.dirs = q.1.dirs ∧
        p.1.files.map FileWrite.triple = q.1.files.map FileWrite.triple ∧ Agree p.2 q.2)
      (iteration cfg seed nf fuel out s) (iteration cfg seed nf fuel out t) := by
  unfold iteration
  simp only
  split
  · trivial
  · refine RelRes.bind (driverLoop_agree cfg nf fuel fuel _ _ _ ⟨rfl, rfl, rfl, rfl⟩) ?_
    rintro ⟨d1, s2⟩ ⟨d2, t2⟩ ⟨hd, hag⟩
    simp only at hd hag
    subst hd
    refine RelRes.bind (fileLoop_agree cfg nf _ _ s2 t2 hag) ?_
    rintro s3 t3 ⟨hag3, fs, fs', e1, e2, e3⟩
    refine ⟨rfl, rfl, ?_, hag3⟩
    simp only [e1, e2, List.drop_left, e3]

theorem rounds_mem (cfg : Config) (seed : Int → Nat → Nat) (nf fuel : Nat) (out : String) :
    ∀ (k : Nat) (st : State) (rs : List Round) (st' : State),
      rounds cfg seed nf fuel out k st = .ok (rs, st') →
      rs.length = k ∧
        ∀ r ∈ rs, ∃ s s', iteration cfg seed nf fuel out s = .ok (r, s') := by
  intro k
  induction k with
  | zero =>
    intro st rs st' h
    rw [rounds] at h
    injection h with h
    injection h with h1 h2
    subst h1
    exact ⟨rfl, by simp⟩
  | succ k ih =>
    intro st rs st' h
    rw [rounds, bind_eq_ok] at h
    obtain ⟨⟨r1, s1⟩, h1, h⟩ := h
    rw [bind_eq_ok] at h
    obtain ⟨⟨rest, s2⟩, h2, h⟩ := h
    injection h with h
    injection h with e1 e2
    subst e1
    obtain ⟨hl, hm⟩ := ih _ _ _ h2
    refine ⟨by simp [hl], ?_⟩
    intro r hr
    rcases List.mem_cons.mp hr with e | e
    · subst e; exact ⟨st, s1, h1⟩
    · exact hm r e

/-- Claim C9 (loop-mode reset, determinism).  For a fixed configuration and seed,
what one round of the loop of `main` shows — the flattened directory list and
the (directory, file name, size) triples, or the way it fails — is the same
whatever state the round starts in (name set, counters, generator state,
files already written).  Hence the rounds of a run in loop mode all show the
same directory list and the same triples. -/
theorem iteration_independent_of_state (cfg : Config) (seed : Int → Nat → Nat)
    (nf fuel : Nat) (out : String) (st1 st2 : State) :
    observe (iteration cfg seed nf fuel out st1) =
        observe (iteration cfg seed nf fuel out st2) ∧
      ∀ (k : Nat) (rs : List Round) (st' : State),
        rounds cfg seed nf fuel out k st1 = .ok (rs, st') →
        rs.length = k ∧ ∀ r1 ∈ rs, ∀ r2 ∈ rs,
          r1.dirs = r2.dirs ∧
            r1.files.map FileWrite.triple = r2.files.map FileWrite.triple := by
  have key : ∀ s t : State, observe (iteration cfg seed nf fuel out s) =
      observe (iteration cfg seed nf fuel out t) := by
    intro s t
    have h := iteration_agree cfg seed nf fuel out s t
    revert h
    generalize iteration cfg seed nf fuel out s = x
    generalize iteration cfg seed nf fuel out t = y
    intro h
    cases x <;> cases y <;> simp only [RelRes] at h <;> try rfl
    obtain ⟨-, h1, h2, -⟩ := h
    simp only [observe, Result.bind, h1, h2]
  refine ⟨key st1 st2, ?_⟩
  intro k rs st' h
  obtain ⟨hl, hm⟩ := rounds_mem cfg seed nf fuel out k st1 rs st' h
  refine ⟨hl, ?_⟩
  intro r1 h1 r2 h2
  obtain ⟨s1, s1', e1⟩ := hm r1 h1
  obtain ⟨s2, s2', e2⟩ := hm r2 h2
  have := key s1 s2
  rw [e1, e2] at this
  simp only [observe, Result.bind, Result.ok.injEq, Prod.mk.injEq] at this
  exact this

/-! ## Enough budget: the construction returns unless a name cannot be found -/

/-- With a budget of more than twice the number of directories still to
create, `createDirectories` returns, unless some `fileName` call spends its
retry budget. -/
theorem createDirectories_progress (cfg : Config) (nf : Nat)
    (hmin : 0 ≤ cfg.minFileNameLength)
    (hlt : cfg.minFileNameLength < cfg.maxFileNameLength)
    (hmax : inInt64 cfg.maxFileNameLength) :
    ∀ (fuel : Nat) (d : Dir) (st : State),
      2 * (st.directoriesToCreate - st.totalDirectories).toNat < fuel →
      createDirectories cfg nf fuel d st = .nameLoop ∨
        ∃ d' st', createDirectories cfg nf fuel d st = .ok (d', st') := by
  intro fuel
  induction fuel with
  | zero => intro d st h; omega
  | succ fuel ih =>
    intro d st h
    rw [createDirectories]
    split
    · rename_i hlt'
      rcases fileName_spec cfg hmin hlt hmax nf st with hn | ⟨name, r, hn, -, -, -, -⟩
      · left; rw [hn]; rfl
      · rw [hn]
        simp only [Result.bind]
        rw [Intn_pos (by decide)]
        simp only
        have hfuel : 2 * (st.directoriesToCreate - (st.totalDirectories + 1)).toNat < fuel := by
          omega
        split
        · split
          · rcases ih (Dir.mk name (d.depth + 1) [])
              { st with rand := { r with pos := r.pos + 1 }, fileNames := name :: st.fileNames,
                        totalDirectories := st.totalDirectories + 1 } hfuel with h1 | ⟨sub, st4, h1⟩
            · left; rw [h1]
            · rw [h1]
              obtain ⟨-, -, t1, -, -, -, a1, -, -, td1, -, -⟩ :=
                (createDirectories_builds cfg nf fuel _ _ _ _ h1).frame
              simp only at t1 td1
              exact ih _ _ (by rw [t1, td1]; omega)
          · exact ih _ _ hfuel
        · right; exact ⟨_, _, rfl⟩
        · exact ih _ _ hfuel
    · right; exact ⟨_, _, rfl⟩

/-- The driver loop returns with a budget of more than twice the target at
both levels, unless some `fileName` call spends its retry budget. -/
theorem driverLoop_progress (cfg : Config) (nf cf : Nat)
    (hmin : 0 ≤ cfg.minFileNameLength)
    (hlt : cfg.minFileNameLength < cfg.maxFileNameLength)
    (hmax : inInt64 cfg.maxFileNameLength) :
    ∀ (fuel : Nat) (d : Dir) (st : State),
      2 * (st.directoriesToCreate - st.totalDirectories).toNat < cf →
      (st.directoriesToCreate - st.totalDirectories).toNat < fuel →
      driverLoop cfg nf cf fuel d st = .nameLoop ∨
        ∃ d' st', driverLoop cfg nf cf fuel d st = .ok (d', st') := by
  intro fuel
  induction fuel with
  | zero => intro d st _ h; omega
  | succ fuel ih =>
    intro d st hcf h
    rw [driverLoop]
    split
    · rename_i hlt'
      rcases createDirectories_progress cfg nf hmin hlt hmax cf d st hcf with h1 | ⟨d1, s1, h1⟩
      · left; rw [h1]; rfl
      · rw [h1]
        simp only [Result.bind]
        have hb := createDirectories_builds cfg nf cf _ _ _ _ h1
        obtain ⟨-, -, t1, -, -, -, a1, -, -, td1, -, -⟩ := hb.frame
        have hpos : 0 < a1.length := by
          cases hb with
          | done _ _ hd => exact absurd hlt' hd
          | stop _ _ name st1 r _ hn hr =>
            obtain ⟨-, r1, rfl⟩ := fileName_ok cfg nf st name st1 hn
            simp only [counted] at td1
            omega
          | descend _ _ name st1 r sub st4 _ _ _ hn hr hd hsub hrest =>
            obtain ⟨-, r1, rfl⟩ := fileName_ok cfg nf st name st1 hn
            obtain ⟨-, -, -, -, -, -, a2, -, -, td2, -, -⟩ := hsub.frame
            obtain ⟨-, -, -, -, -, -, a3, -, -, td3, -, -⟩ := hrest.frame
            simp only [counted] at td2
            omega
          | next _ _ name st1 c r _ _ _ hn hr hc hrest =>
            obtain ⟨-, r1, rfl⟩ := fileName_ok cfg nf st name st1 hn
            obtain ⟨-, -, -, -, -, -, a3, -, -, td3, -, -⟩ := hrest.frame
            simp only [counted] at td3
            omega
        exact ih _ _ (by rw [t1, td1]; omega) (by rw [t1, td1]; omega)
    · right; exact ⟨_, _, rfl⟩

/-- The file loop returns when the directory list is not empty and the size
range is not, unless some `fileName` call spends its retry budget. -/
theorem fileLoop_progress (cfg : Config) (nf : Nat) (dirs : List String)
    (hmin : 0 ≤ cfg.minFileNameLength)
    (hlt : cfg.minFileNameLength < cfg.maxFileNameLength)
    (hmax : inInt64 cfg.maxFileNameLength)
    (hdirs : dirs ≠ [])
    (hsize : 0 < wrapInt (cfg.maxFileSize - cfg.minFileSize)) :
    ∀ (k : Nat) (st : State),
      fileLoop cfg nf dirs k st = .nameLoop ∨ ∃ st', fileLoop cfg nf dirs k st = .ok st' := by
  intro k
  induction k with
  | zero => intro st; right; exact ⟨st, rfl⟩
  | succ k ih =>
    intro st
    have hpos : 0 < dirs.length := List.length_pos.mpr hdirs
    rw [fileLoop, Intn_pos (by omega)]
    simp only [Result.bind]
    have hj : st.rand.draws st.rand.pos % ((dirs.length : Nat) : Int).toNat < dirs.length := by
      simpa using Nat.mod_lt (st.rand.draws st.rand.pos) hpos
    rw [List.getElem?_eq_getElem hj]
    simp only
    rcases fileName_spec cfg hmin hlt hmax nf
        { st with rand := { st.rand with pos := st.rand.pos + 1 } } with hn | ⟨name, r, hn, -⟩
    · left; rw [hn]
    · rw [hn]
      simp only
      obtain ⟨content, c', -, -, hw⟩ := writeFile_of_pos cfg
        dirs[st.rand.draws st.rand.pos % ((dirs.length : Nat) : Int).toNat] name
        { st with rand := r, fileNames := name :: st.fileNames } _ hsize rfl
      rw [hw]
      exact ih _

theorem list_ne_nil (d : Dir) : d.list "" [] ≠ [] := by
  intro h
  have := congrArg List.length h
  rw [list_eq_preorder, List.nil_append, preorder_length, size_eq_descNames] at this
  simp at this

/-- A round returns when the flags are sound (a non-zero divisor, a non-empty
range of name lengths and of sizes) and the budget exceeds twice the target,
unless some `fileName` call spends its retry budget. -/
theorem iteration_progress (cfg : Config) (seed : Int → Nat → Nat) (nf fuel : Nat)
    (out : String) (st : State)
    (hper : cfg.averageFilesPerDirectory ≠ 0)
    (hmin : 0 ≤ cfg.minFileNameLength)
    (hlt : cfg.minFileNameLength < cfg.maxFileNameLength)
    (hmax : inInt64 cfg.maxFileNameLength)
    (hsize : 0 < wrapInt (cfg.maxFileSize - cfg.minFileSize))
    (hfuel : 2 * (wrapInt (Int.tdiv cfg.numberOfFiles cfg.averageFilesPerDirectory)).toNat
      < fuel) :
    iteration cfg seed nf fuel out st = .nameLoop ∨
      ∃ round st', iteration cfg seed nf fuel out st = .ok (round, st') := by
  unfold iteration
  simp only
  rw [if_neg hper]
  rcases driverLoop_progress cfg nf fuel hmin hlt hmax fuel (Dir.mk out 1 [])
      { st with
        rand := { draws := seed cfg.defaultSeed, pos := 0 },
        fileNames := [], totalSize := 0,
        directoriesToCreate :=
          wrapInt (Int.tdiv cfg.numberOfFiles cfg.averageFilesPerDirectory),
        totalDirectories := 0 }
      (by simpa using hfuel) (by simp only [sub_zero]; omega) with h | ⟨root, st2, h⟩
  · left
    unfold driver
    rw [h]
    rfl
  · unfold driver
    rw [h]
    simp only [Result.bind]
    rcases fileLoop_progress cfg nf (root.list "" []) hmin hlt hmax (list_ne_nil root) hsize
        cfg.numberOfFiles.toNat st2 with h3 | ⟨st3, h3⟩
    · left; rw [h3]
    · right; rw [h3]; exact ⟨_, _, rfl⟩

/-! ## The example scenario -/

/-- Claim C2, refuted as stated.  With `-min-size 10 -max-size 10` the first
`writeFile` call panics in `rand.Int63n(0)`: the round below ends in a panic,
and no round returns for any seed, budget and starting state. -/
theorem scenario_panics :
    observe (iteration scenarioConfig (fun s i => 3 * i + s.toNat) 4 4 "out"
        (State.start id id)) = .panic ∧
      ¬ ∃ (seed : Int → Nat → Nat) (nf fuel : Nat) (out : String) (st : State)
          (r : Round × State), iteration scenarioConfig seed nf fuel out st = .ok r := by
  constructor
  · decide!
  · rintro ⟨seed, nf, fuel, out, st, ⟨round, st'⟩, h⟩
    obtain ⟨-, -, -, -, -, -, -, -, -, hlen, -, -, hfw⟩ :=
      iteration_tree scenarioConfig seed nf fuel out st round st' h
    have h5 : round.files.length = 5 := by rw [hlen]; decide
    cases hf : round.files with
    | nil => rw [hf] at h5; cases h5
    | cons fw rest =>
      have := (hfw fw (by rw [hf]; exact List.mem_cons_self _ _)).2.1
      revert this
      decide

/-- Claim C2, amended.  In the example scenario with `-max-size 11` (so that the
half-open range `[min-size, max-size)` holds the size 10), for every seed and
starting state a round with a budget of at least 3 does not panic and is not
fatal: it returns unless a `fileName` call spends its retry budget, and then
it has made exactly 5 `writeFile` calls, each file has size exactly 10 and
holds 10 zero bytes, and exactly one directory was created besides the root. -/
theorem scenario_with_max_size_11 (seed : Int → Nat → Nat) (nf fuel : Nat)
    (out : String) (st : State) (hfuel : 3 ≤ fuel) :
    iteration scenarioConfig11 seed nf fuel out st = .nameLoop ∨
      ∃ round st', iteration scenarioConfig11 seed nf fuel out st = .ok (round, st') ∧
        round.files.length = 5 ∧
        (∀ fw ∈ round.files, fw.size = 10 ∧ fw.content = List.replicate 10 0) ∧
        round.root.descNames.length = 1 ∧ round.dirs.length = 2 := by
  have hw : wrapInt (scenarioConfig11.maxFileSize - scenarioConfig11.minFileSize) = 1 := by
    decide
  have ht : wrapInt (Int.tdiv scenarioConfig11.numberOfFiles
      scenarioConfig11.averageFilesPerDirectory) = 1 := by decide
  rcases iteration_progress scenarioConfig11 seed nf fuel out st (by decide) (by decide)
      (by decide) (by decide) (by rw [hw]; decide) (by rw [ht]; simpa using hfuel)
    with h | ⟨round, st', h⟩
  · left; exact h
  · right
    obtain ⟨-, hdirs, -, -, htar, htot, hle, hdone, -, hlen, -, -, hfw⟩ :=
      iteration_tree scenarioConfig11 seed nf fuel out st round st' h
    rw [ht] at htar
    rw [htar] at hle hdone
    have h1 := hle (by decide)
    have hn : round.root.descNames.length = 1 := by omega
    refine ⟨round, st', h, by rw [hlen]; decide, ?_, hn, ?_⟩
    · intro fw hmem
      obtain ⟨-, -, ⟨j, hj, hs⟩, hcl, hz⟩ := hfw fw hmem
      rw [hw] at hj
      have hj0 : j = 0 := by omega
      subst hj0
      have hs10 : fw.size = 10 := by rw [hs]; decide
      have hc := hz (by decide)
      rw [hcl, hs10] at hc
      exact ⟨hs10, hc⟩
    · rw [hdirs, list_eq_preorder, List.nil_append, preorder_length, size_eq_descNames, hn]

theorem scenario_with_max_size_11_witness :
    (3 ≤ 3) ∧
    (iteration scenarioConfig11 (fun s i => 3 * i + s.toNat) 4 3 "out" (State.start id id) =
        .nameLoop ∨
      ∃ round st', iteration scenarioConfig11 (fun s i => 3 * i + s.toNat) 4 3 "out"
          (State.start id id) = .ok (round, st') ∧
        round.files.length = 5 ∧
        (∀ fw ∈ round.files, fw.size = 10 ∧ fw.content = List.replicate 10 0) ∧
        round.root.descNames.length = 1 ∧ round.dirs.length = 2) :=
  ⟨by decide, scenario_with_max_size_11 (fun s i => 3 * i + s.toNat) 4 3 "out"
    (State.start id id) (by decide)⟩

/-- A round of the scenario with `-max-size 11` that returns: five files of
size 10 and one directory besides the root. -/
theorem scenario_with_max_size_11_sample :
    (iteration scenarioConfig11 (fun s i => 3 * i + s.toNat) 4 3 "out"
        (State.start id id)).bind
      (fun p => .ok (p.1.files.map FileWrite.size, p.1.root.descNames.length)) =
      .ok ([10, 10, 10, 10, 10], 1) := by
  decide!

/-! ## filepath.Join on clean paths -/

theorem splitSlash_ne_nil (s : List Char) : splitSlash s ≠ [] := by
  cases s with
  | nil => simp [splitSlash]
  | cons c cs =>
    rw [splitSlash]
    split
    · simp
    · split <;> simp

theorem splitSlash_of_not_mem : ∀ {n : List Char}, '/' ∉ n → splitSlash n = [n] := by
  intro n
  induction n with
  | nil => intro _; rfl
  | cons c cs ih =>
    intro h
    have hc : c ≠ '/' := fun e => h (e ▸ List.mem_cons_self _ _)
    have hcs : '/' ∉ cs := fun e => h (List.mem_cons_of_mem _ e)
    rw [splitSlash, if_neg hc, ih hcs]

theorem splitSlash_append (a b : List Char) :
    splitSlash (a ++ '/' :: b) = splitSlash a ++ splitSlash b := by
  induction a with
  | nil => simp [splitSlash]
  | cons c cs ih =>
    rw [List.cons_append, splitSlash, splitSlash, ih]
    by_cases hc : c = '/'
    · rw [if_pos hc, if_pos hc]; rfl
    · rw [if_neg hc, if_neg hc]
      cases h : splitSlash cs with
      | nil => exact absurd h (splitSlash_ne_nil cs)
      | cons e es => rfl

theorem joinSlash_cons_cons (e e' : List Char) (es : List (List Char)) :
    joinSlash (e :: e' :: es) = e ++ '/' :: joinSlash (e' :: es) := rfl

theorem splitSlash_joinSlash :
    ∀ comps : List (List Char), comps ≠ [] → (∀ e ∈ comps, '/' ∉ e) →
      splitSlash (joinSlash comps) = comps := by
  intro comps
  induction comps with
  | nil => intro h; exact absurd rfl h
  | cons e es ih =>
    intro _ hall
    cases es with
    | nil => exact splitSlash_of_not_mem (hall e (List.mem_cons_self _ _))
    | cons e' es' =>
      rw [joinSlash_cons_cons, splitSlash_append,
        splitSlash_of_not_mem (hall e (List.mem_cons_self _ _)),
        ih (by simp) (fun x hx => hall x (List.mem_cons_of_mem _ hx))]
      rfl

theorem CleanStk.mem {rooted : Bool} :
    ∀ {stk : List (List Char)}, CleanStk rooted stk →
      ∀ e ∈ stk, e ≠ [] ∧ '/' ∉ e ∧ e ≠ ['.'] := by
  intro stk
  induction stk with
  | nil => intro _ e he; cases he
  | cons t rest ih =>
    intro h e he
    obtain ⟨h1, h2, h3, -, h5⟩ := h
    rcases List.mem_cons.mp he with rfl | he
    · exact ⟨h1, h2, h3⟩
    · exact ih h5 e he

theorem cleanStep_push {rooted : Bool} {t : List Char} {rest : List (List Char)}
    (h : CleanStk rooted (t :: rest)) : cleanStep rooted rest t = t :: rest := by
  obtain ⟨h1, h2, h3, h4, h5⟩ := h
  unfold cleanStep
  rw [if_neg (by rintro (e | e) <;> contradiction)]
  by_cases hd : t = ['.', '.']
  · rw [if_pos hd]
    obtain ⟨hr, hall⟩ := h4 hd
    cases rest with
    | nil => simp [hr]
    | cons t' rest' =>
      have := hall t' (List.mem_cons_self _ _)
      simp [this]
  · rw [if_neg hd]

theorem cleanStep_clean {rooted : Bool} {stk : List (List Char)} {e : List Char}
    (h : CleanStk rooted stk) (he : '/' ∉ e) : CleanStk rooted (cleanStep rooted stk e) := by
  unfold cleanStep
  by_cases h1 : e = [] ∨ e = ['.']
  · rw [if_pos h1]; exact h
  · rw [if_neg h1]
    have hne : e ≠ [] := fun x => h1 (Or.inl x)
    have hnd : e ≠ ['.'] := fun x => h1 (Or.inr x)
    by_cases hd : e = ['.', '.']
    · rw [if_pos hd]
      cases stk with
      | nil =>
        cases rooted with
        | true => simp [CleanStk]
        | false =>
          simp only [Bool.false_eq_true, if_false]
          exact ⟨hne, he, hnd, fun _ => ⟨rfl, by simp⟩, trivial⟩
      | cons t rest =>
        simp only
        by_cases ht : t = ['.', '.']
        · rw [if_pos ht]
          obtain ⟨hr, hall⟩ := h.2.2.2.1 ht
          refine ⟨hne, he, hnd, fun _ => ⟨hr, ?_⟩, h⟩
          intro x hx
          rcases List.mem_cons.mp hx with rfl | hx
          · exact ht
          · exact hall x hx
        · rw [if_neg ht]
          exact h.2.2.2.2
    · rw [if_neg hd]
      exact ⟨hne, he, hnd, fun x => absurd x hd, h⟩

theorem splitSlash_not_mem : ∀ (s : List Char), ∀ e ∈ splitSlash s, '/' ∉ e := by
  intro s
  induction s with
  | nil => intro e he; simp [splitSlash] at he; subst he; simp
  | cons c cs ih =>
    intro e he
    rw [splitSlash] at he
    by_cases hc : c = '/'
    · rw [if_pos hc] at he
      rcases List.mem_cons.mp he with rfl | he
      · simp
      · exact ih e he
    · rw [if_neg hc] at he
      cases h : splitSlash cs with
      | nil => exact absurd h (splitSlash_ne_nil cs)
      | cons x xs =>
        rw [h] at he ih
        simp only at he
        rcases List.mem_cons.mp he with rfl | he
        · intro hm
          rcases List.mem_cons.mp hm with e1 | e1
          · exact hc e1.symm
          · exact ih x (List.mem_cons_self _ _) e1
        · exact ih e (List.mem_cons_of_mem _ he)

theorem foldl_cleanStep_clean {rooted : Bool} :
    ∀ (es : List (List Char)) (acc : List (List Char)), CleanStk rooted acc →
      (∀ e ∈ es, '/' ∉ e) → CleanStk rooted (es.foldl (cleanStep rooted) acc) := by
  intro es
  induction es with
  | nil => intro acc h _; exact h
  | cons e es ih =>
    intro acc h hall
    exact ih _ (cleanStep_clean h (hall e (List.mem_cons_self _ _)))
      (fun x hx => hall x (List.mem_cons_of_mem _ hx))

theorem cleanStack_clean (rooted : Bool) (s : List Char) :
    CleanStk rooted (cleanStack rooted s) :=
  foldl_cleanStep_clean _ _ trivial (splitSlash_not_mem s)

theorem foldl_cleanStep_reverse {rooted : Bool} :
    ∀ stk : List (List Char), CleanStk rooted stk →
      stk.reverse.foldl (cleanStep rooted) [] = stk := by
  intro stk
  induction stk with
  | nil => intro _; rfl
  | cons t rest ih =>
    intro h
    rw [List.reverse_cons, List.foldl_append, ih h.2.2.2.2]
    exact cleanStep_push h

theorem joinSlash_ne_nil {comps : List (List Char)} (h : comps ≠ [])
    (hall : ∀ e ∈ comps, e ≠ []) : joinSlash comps ≠ [] := by
  cases comps with
  | nil => exact absurd rfl h
  | cons e es =>
    have he := hall e (List.mem_cons_self _ _)
    cases es with
    | nil => exact he
    | cons e' es' => rw [joinSlash_cons_cons]; simp [he]

theorem joinSlash_head {e : List Char} {es : List (List Char)} {c : Char} {cs : List Char}
    (h : joinSlash (e :: es) = c :: cs) (he : e ≠ []) : c ∈ e := by
  cases e with
  | nil => exact absurd rfl he
  | cons x xs =>
    cases es with
    | nil =>
      simp only [joinSlash] at h
      injection h with h1 h2
      rw [h1]; exact List.mem_cons_self _ _
    | cons e' es' =>
      rw [joinSlash_cons_cons] at h
      simp only [List.cons_append] at h
      injection h with h1 h2
      rw [h1]; exact List.mem_cons_self _ _

/-- Cleaning the text of a clean stack gives the stack back. -/
theorem cleanStack_renderPath {rooted : Bool} {stk : List (List Char)}
    (h : CleanStk rooted stk) : cleanStack rooted (renderPath rooted stk) = stk := by
  have hall : ∀ e ∈ stk.reverse, '/' ∉ e := fun e he => (h.mem e (List.mem_reverse.mp he)).2.1
  have hne : ∀ e ∈ stk.reverse, e ≠ [] := fun e he => (h.mem e (List.mem_reverse.mp he)).1
  unfold cleanStack renderPath
  simp only
  cases stk with
  | nil =>
    cases rooted <;> simp [joinSlash, splitSlash, cleanStep]
  | cons t rest =>
    have hrev : (t :: rest).reverse ≠ [] := by simp
    cases rooted with
    | true =>
      simp only [if_true]
      rw [splitSlash, if_pos rfl, List.foldl_cons]
      have h0 : cleanStep true [] [] = [] := by simp [cleanStep]
      rw [h0, splitSlash_joinSlash _ hrev hall]
      exact foldl_cleanStep_reverse _ h
    | false =>
      simp only [Bool.false_eq_true, if_false]
      rw [if_neg (joinSlash_ne_nil hrev hne), splitSlash_joinSlash _ hrev hall]
      exact foldl_cleanStep_reverse _ h

/-- The text of a clean stack starts with a separator exactly when rooted. -/
theorem renderPath_head {rooted : Bool} {stk : List (List Char)} (h : CleanStk rooted stk) :
    ∃ c cs, renderPath rooted stk = c :: cs ∧ decide (c = '/') = rooted := by
  unfold renderPath
  simp only
  cases rooted with
  | true => exact ⟨'/', joinSlash stk.reverse, by simp, by decide⟩
  | false =>
    simp only [Bool.false_eq_true, if_false]
    by_cases hb : joinSlash stk.reverse = []
    · rw [if_pos hb]; exact ⟨'.', [], rfl, by decide⟩
    · rw [if_neg hb]
      cases hj : joinSlash stk.reverse with
      | nil => exact absurd hj hb
      | cons c cs =>
        refine ⟨c, cs, rfl, ?_⟩
        cases hr : stk.reverse with
        | nil => rw [hr] at hj; simp [joinSlash] at hj
        | cons e es =>
          rw [hr] at hj
          have hmem : e ∈ stk := List.mem_reverse.mp (by rw [hr]; exact List.mem_cons_self _ _)
          obtain ⟨h1, h2, -⟩ := h.mem e hmem
          have hc := joinSlash_head hj h1
          have : c ≠ '/' := fun e1 => h2 (e1 ▸ hc)
          simp [this]

theorem validName.cleanStk {rooted : Bool} {stk : List (List Char)} {n : List Char}
    (hn : validName n) (h : CleanStk rooted stk) : CleanStk rooted (n :: stk) := by
  obtain ⟨h1, h2, h3⟩ := hn
  refine ⟨h1, h2, ?_, ?_, h⟩
  · intro e; rw [e] at h3; simp at h3
  · intro e; rw [e] at h3; simp at h3

theorem renderPath_ne_nil {rooted : Bool} {stk : List (List Char)} (h : CleanStk rooted stk) :
    renderPath rooted stk ≠ [] := by
  obtain ⟨c, cs, e, -⟩ := renderPath_head h
  rw [e]; simp

/-- Joining a valid name to a clean path pushes the name on its stack. -/
theorem filepathJoin_push {p : String} {rooted : Bool} {stk : List (List Char)}
    {n : List Char} (h : Rep p rooted stk) (hn : validName n) :
    filepathJoin p (String.mk n) = String.mk (renderPath rooted (n :: stk)) := by
  obtain ⟨hc, hp | ⟨hp, hr, hs⟩⟩ := h
  · obtain ⟨c, cs, e, hdec⟩ := renderPath_head hc
    have hstep : cleanStep rooted stk n = n :: stk := cleanStep_push (hn.cleanStk hc)
    unfold filepathJoin
    rw [hp]
    simp only
    rw [if_pos (renderPath_ne_nil hc), e, List.cons_append]
    unfold filepathClean
    simp only
    rw [hdec, ← List.cons_append, ← e]
    unfold cleanStack
    rw [splitSlash_append, List.foldl_append, splitSlash_of_not_mem hn.2.1]
    have := cleanStack_renderPath hc
    unfold cleanStack at this
    rw [this]
    simp only [List.foldl_cons, List.foldl_nil, hstep]
  · subst hp hr hs
    obtain ⟨h1, h2, h3⟩ := hn
    unfold filepathJoin
    have he : ("" : String).data = [] := rfl
    have hstep : cleanStep false [] n = [n] := cleanStep_push (validName.cleanStk ⟨h1, h2, h3⟩ trivial)
    rw [he]
    simp only [ne_eq, not_true_eq_false, if_false]
    rw [if_pos h1]
    cases n with
    | nil => exact absurd rfl h1
    | cons c cs =>
      have hc : c ≠ '/' := fun e => h2 (e ▸ List.mem_cons_self _ _)
      unfold filepathClean
      simp only
      have hd : decide (c = '/') = false := by simp [hc]
      rw [hd]
      unfold cleanStack
      rw [splitSlash_of_not_mem h2]
      simp only [List.foldl_cons, List.foldl_nil, hstep]

theorem Rep.push {p : String} {rooted : Bool} {stk : List (List Char)} {n : List Char}
    (h : Rep p rooted stk) (hn : validName n) :
    Rep (filepathJoin p (String.mk n)) rooted (n :: stk) :=
  ⟨hn.cleanStk h.1, Or.inl (filepathJoin_push h hn)⟩

/-- The path of the root, `filepath.Join("", name)`, is clean or empty. -/
theorem Rep.root (name : String) : ∃ rooted stk, Rep (filepathJoin "" name) rooted stk := by
  have he : ("" : String).data = [] := rfl
  unfold filepathJoin
  rw [he]
  simp only [ne_eq, not_true_eq_false, if_false]
  by_cases hn : name.data = []
  · rw [if_neg (by simpa using hn)]
    exact ⟨false, [], trivial, Or.inr ⟨rfl, rfl, rfl⟩⟩
  · rw [if_pos hn]
    cases hd : name.data with
    | nil => exact absurd hd hn
    | cons c cs =>
      unfold filepathClean
      simp only
      exact ⟨decide (c = '/'), _, cleanStack_clean _ _, Or.inl rfl⟩

/-! ## The paths of a tree as stacks -/

mutual
theorem preorder_eq_stacks : ∀ (d : Dir) (path : String) (rooted : Bool)
    (stk : List (List Char)), Rep path rooted stk →
    (∀ n ∈ d.name :: d.descNames, validName n.data) →
    d.preorder path = (d.stacks stk).map fun s => String.mk (renderPath rooted s)
  | .mk name _ children, path, rooted, stk, h, hv => by
    have hn : validName name.data := hv name (List.mem_cons_self _ _)
    have hj : filepathJoin path name = String.mk (renderPath rooted (name.data :: stk)) :=
      filepathJoin_push h hn
    have hr : Rep (filepathJoin path name) rooted (name.data :: stk) := h.push hn
    rw [Dir.preorder, Dir.stacks, List.map_cons,
      preorderChildren_eq_stacks children _ rooted _ hr
        (fun n hm => hv n (List.mem_cons_of_mem _ hm)), hj]
theorem preorderChildren_eq_stacks : ∀ (cs : List Dir) (path : String) (rooted : Bool)
    (stk : List (List Char)), Rep path rooted stk →
    (∀ n ∈ namesChildren cs, validName n.data) →
    preorderChildren cs path =
      (stacksChildren cs stk).map fun s => String.mk (renderPath rooted s)
  | [], _, _, _, _, _ => by simp [preorderChildren, stacksChildren]
  | c :: cs, path, rooted, stk, h, hv => by
    rw [preorderChildren, stacksChildren, List.map_append,
      preorder_eq_stacks c path rooted stk h (fun n hm => hv n (by
        rw [namesChildren]; exact List.mem_append_left _ hm)),
      preorderChildren_eq_stacks cs path rooted stk h (fun n hm => hv n (by
        rw [namesChildren]; exact List.mem_append_right _ hm))]
end

mutual
theorem stacks_heads : ∀ (d : Dir) (stk : List (List Char)),
    (d.stacks stk).map List.head? = (d.name :: d.descNames).map fun n => some n.data
  | .mk name _ children, stk => by
    rw [Dir.stacks, List.map_cons, stacksChildren_heads children]
    rfl
theorem stacksChildren_heads : ∀ (cs : List Dir) (stk : List (List Char)),
    (stacksChildren cs stk).map List.head? = (namesChildren cs).map fun n => some n.data
  | [], _ => by simp [stacksChildren, namesChildren]
  | c :: cs, stk => by
    rw [stacksChildren, namesChildren, List.map_append, List.map_append, stacks_heads c,
      stacksChildren_heads cs]
end

mutual
theorem stacks_clean : ∀ (d : Dir) (rooted : Bool) (stk : List (List Char)),
    CleanStk rooted stk → (∀ n ∈ d.name :: d.descNames, validName n.data) →
    ∀ s ∈ d.stacks stk, CleanStk rooted s ∧ stk.length < s.length
  | .mk name _ children, rooted, stk, h, hv => by
    have hn : validName name.data := hv name (List.mem_cons_self _ _)
    intro s hs
    rw [Dir.stacks] at hs
    rcases List.mem_cons.mp hs with rfl | hs
    · exact ⟨hn.cleanStk h, by simp⟩
    · obtain ⟨h1, h2⟩ := stacksChildren_clean children rooted _ (hn.cleanStk h)
        (fun n hm => hv n (List.mem_cons_of_mem _ hm)) s hs
      exact ⟨h1, by simp only [List.length_cons] at h2; omega⟩
theorem stacksChildren_clean : ∀ (cs : List Dir) (rooted : Bool) (stk : List (List Char)),
    CleanStk rooted stk → (∀ n ∈ namesChildren cs, validName n.data) →
    ∀ s ∈ stacksChildren cs stk, CleanStk rooted s ∧ stk.length < s.length
  | [], _, _, _, _ => by intro s hs; simp [stacksChildren] at hs
  | c :: cs, rooted, stk, h, hv => by
    intro s hs
    rw [stacksChildren] at hs
    rcases List.mem_append.mp hs with hs | hs
    · exact stacks_clean c rooted stk h (fun n hm => hv n (by
        rw [namesChildren]; exact List.mem_append_left _ hm)) s hs
    · exact stacksChildren_clean cs rooted stk h (fun n hm => hv n (by
        rw [namesChildren]; exact List.mem_append_right _ hm)) s hs
end

/-- The flattened list of a tree has no duplicates when the names below the
root are valid and pairwise distinct. -/
theorem list_nodup_of_names (root : Dir) (hv : ∀ n ∈ root.descNames, validName n.data)
    (hnd : root.descNames.Nodup) : (root.list "" []).Nodup := by
  rw [list_eq_preorder, List.nil_append]
  cases root with
  | mk name depth children =>
    rw [Dir.descNames] at hv hnd
    obtain ⟨rooted, stk, hrep⟩ := Rep.root name
    rw [Dir.preorder, preorderChildren_eq_stacks children _ rooted stk hrep hv]
    have hcl := stacksChildren_clean children rooted stk hrep.1 hv
    have hinj : ∀ s ∈ stacksChildren children stk, ∀ s' ∈ stacksChildren children stk,
        String.mk (renderPath rooted s) = String.mk (renderPath rooted s') → s = s' := by
      intro s hs s' hs' e
      injection e with e
      rw [← cleanStack_renderPath (hcl s hs).1, ← cleanStack_renderPath (hcl s' hs').1, e]
    have hstk : (stacksChildren children stk).Nodup := by
      apply List.Nodup.of_map List.head?
      rw [stacksChildren_heads]
      apply List.Nodup.map _ hnd
      intro a b e
      simp only [Option.some.injEq] at e
      exact String.ext e
    refine List.nodup_cons.mpr ⟨?_, List.Nodup.map_on hinj hstk⟩
    intro hmem
    obtain ⟨s, hs, e⟩ := List.mem_map.mp hmem
    obtain ⟨hcs, hlen⟩ := hcl s hs
    rcases hrep.2 with hp | ⟨hp, -, -⟩
    · rw [hp] at e
      injection e with e
      have := congrArg (cleanStack rooted) e
      rw [cleanStack_renderPath hcs, cleanStack_renderPath hrep.1] at this
      rw [this] at hlen
      omega
    · rw [hp] at e
      have := congrArg String.data e
      exact renderPath_ne_nil hcs this

/-! ## The characters of a name -/

theorem pattern_length : pattern.length = 8 := rfl

theorem pattern_no_separator {q : Nat} {source : List Char} (h : pattern[q]? = some source) :
    '/' ∉ source ∧ '.' ∉ source := by
  have hall : ∀ s ∈ pattern, '/' ∉ s ∧ '.' ∉ s := by decide
  exact hall source (List.getElem?_mem h)

/-- The loop of `randomString` leaves the length of the buffer alone and
writes, at every index it has passed, a character of the class its position
in the pattern names. -/
theorem randomStringLoop_chars :
    ∀ (k i p : Nat) (out : List Char) (r : Rand) (out' : List Char) (r' : Rand),
      p = i % 8 → randomStringLoop k i p out r = .ok (out', r') →
      (∀ j < i, ∀ c, out[j]? = some c →
        ∃ source, pattern[j % 8]? = some source ∧ c ∈ source) →
      out'.length = out.length ∧
        ∀ j < i + k, ∀ c, out'[j]? = some c →
          ∃ source, pattern[j % 8]? = some source ∧ c ∈ source := by
  intro k
  induction k with
  | zero =>
    intro i p out r out' r' _ h hinv
    rw [randomStringLoop] at h
    injection h with h
    injection h with h1 h2
    subst h1
    exact ⟨rfl, hinv⟩
  | succ k ih =>
    intro i p out r out' r' hp h hinv
    rw [randomStringLoop] at h
    split at h
    · cases h
    · rename_i source hs
      rw [bind_eq_ok] at h
      obtain ⟨⟨j0, r1⟩, -, h⟩ := h
      simp only at h
      split at h
      · cases h
      · rename_i c hc
        have hp' : (p + 1) % pattern.length = (i + 1) % 8 := by
          rw [pattern_length, hp]; omega
        obtain ⟨hl, hall⟩ := ih (i + 1) _ (out.set i c) r1 out' r' hp' h (by
          intro j hj c' hc'
          rw [List.getElem?_set] at hc'
          by_cases hij : i = j
          · subst hij
            rw [if_pos rfl] at hc'
            split at hc'
            · injection hc' with hc'
              subst hc'
              exact ⟨source, by rw [← hp]; exact hs, List.getElem?_mem hc⟩
            · cases hc'
          · rw [if_neg hij] at hc'
            exact hinv j (by omega) c' hc')
        refine ⟨by rw [hl, List.length_set], ?_⟩
        intro j hj c' hc'
        exact hall j (by omega) c' hc'

theorem randomString_inv {n : Int} {r r' : Rand} {s : String}
    (h : randomString n r = .ok (s, r')) :
    0 ≤ n ∧ s.data.length = n.toNat ∧ ∀ c ∈ s.data, c ≠ '/' ∧ c ≠ '.' := by
  unfold randomString at h
  split at h
  · cases h
  · rename_i hn
    rw [bind_eq_ok] at h
    obtain ⟨⟨o, r1⟩, hl, h⟩ := h
    injection h with h
    injection h with h1 h2
    subst h1
    obtain ⟨hlen, hall⟩ := randomStringLoop_chars _ 0 0 _ r o r1 rfl hl (by
      intro j hj; omega)
    rw [List.length_replicate] at hlen
    refine ⟨by omega, hlen, ?_⟩
    intro c hc
    obtain ⟨j, hj⟩ := List.mem_iff_getElem?.mp hc
    have hjl : j < o.length := by
      rcases List.getElem?_eq_some.mp hj with ⟨hlt, -⟩
      exact hlt
    obtain ⟨source, hs, hm⟩ := hall j (by omega) c hj
    obtain ⟨h1, h2⟩ := pattern_no_separator hs
    exact ⟨fun e => h1 (e ▸ hm), fun e => h2 (e ▸ hm)⟩

/-- With `1 <= min-name-length < max-name-length`, a name `fileName` returns is
not empty and holds neither a separator nor a dot. -/
theorem fileName_valid (cfg : Config) (hmin : 1 ≤ cfg.minFileNameLength)
    (hlt : cfg.minFileNameLength < cfg.maxFileNameLength)
    (hmax : inInt64 cfg.maxFileNameLength) :
    ∀ (nf : Nat) (st : State) (name : String) (st' : State),
      fileName cfg nf st = .ok (name, st') → validName name.data := by
  have hw : wrapInt (cfg.maxFileNameLength - cfg.minFileNameLength) =
      cfg.maxFileNameLength - cfg.minFileNameLength := by
    apply wrapInt_eq
    unfold inInt64 at *
    omega
  intro nf
  induction nf with
  | zero => intro st name st' h; simp [fileName] at h
  | succ nf ih =>
    intro st name st' h
    rw [fileName, bind_eq_ok] at h
    obtain ⟨⟨k, r1⟩, hk, h⟩ := h
    rw [bind_eq_ok] at h
    obtain ⟨⟨s, r2⟩, hs, h⟩ := h
    simp only at h hs
    split at h
    · exact ih _ _ _ h
    · injection h with h
      injection h with h1 h2
      subst h1
      rw [hw, Intn_eq_ok] at hk
      obtain ⟨hpos, hkeq, -⟩ := hk
      have hklt : (k : Int) < cfg.maxFileNameLength - cfg.minFileNameLength := by
        rw [hkeq]; exact mod_toNat_lt _ hpos
      have hlen : wrapInt (k + cfg.minFileNameLength) = k + cfg.minFileNameLength := by
        apply wrapInt_eq
        unfold inInt64 at *
        omega
      rw [hlen] at hs
      obtain ⟨-, hl, hall⟩ := randomString_inv hs
      refine ⟨?_, fun hm => (hall _ hm).1 rfl, fun hm => (hall _ hm).2 rfl⟩
      intro e
      rw [e] at hl
      simp only [List.length_nil] at hl
      omega

theorem Builds.valid {cfg : Config} {nf : Nat} {d d' : Dir} {st st' : State}
    (hmin : 1 ≤ cfg.minFileNameLength)
    (hlt : cfg.minFileNameLength < cfg.maxFileNameLength)
    (hmax : inInt64 cfg.maxFileNameLength)
    (h : Builds cfg nf d st d' st') :
    (∀ n ∈ d.descNames, validName n.data) → ∀ n ∈ d'.descNames, validName n.data := by
  induction h with
  | done d st h => exact id
  | stop d st name st1 r h hn hr =>
    intro hv n hm
    rw [addChild_descNames, newChild_name, newChild_descNames] at hm
    rcases List.mem_append.mp hm with hm | hm
    · exact hv n hm
    · simp only [List.mem_singleton] at hm
      subst hm
      exact fileName_valid cfg hmin hlt hmax nf st _ st1 hn
  | descend d st name st1 r sub st4 d' st' h hn hr hd hsub hrest ih1 ih2 =>
    intro hv
    apply ih2
    intro n hm
    rw [addChild_descNames] at hm
    rcases List.mem_append.mp hm with hm | hm
    · exact hv n hm
    · rcases List.mem_cons.mp hm with hm | hm
      · rw [hm, (Builds.frame hsub).1, newChild_name]
        exact fileName_valid cfg hmin hlt hmax nf st _ st1 hn
      · exact ih1 (by rw [newChild_descNames]; intro x hx; cases hx) n hm
  | next d st name st1 c r d' st' h hn hr hc hrest ih =>
    intro hv
    apply ih
    intro n hm
    rw [addChild_descNames, newChild_name, newChild_descNames] at hm
    rcases List.mem_append.mp hm with hm | hm
    · exact hv n hm
    · simp only [List.mem_singleton] at hm
      subst hm
      exact fileName_valid cfg hmin hlt hmax nf st _ st1 hn

theorem driverLoop_valid (cfg : Config) (nf cf : Nat)
    (hmin : 1 ≤ cfg.minFileNameLength)
    (hlt : cfg.minFileNameLength < cfg.maxFileNameLength)
    (hmax : inInt64 cfg.maxFileNameLength) :
    ∀ (fuel : Nat) (root : Dir) (st : State) (root' : Dir) (st' : State),
      driverLoop cfg nf cf fuel root st = .ok (root', st') →
      (∀ n ∈ root.descNames, validName n.data) → ∀ n ∈ root'.descNames, validName n.data := by
  intro fuel
  induction fuel with
  | zero => intro root st root' st' h; simp [driverLoop] at h
  | succ fuel ih =>
    intro root st root' st' h hv
    rw [driverLoop] at h
    split at h
    · rw [bind_eq_ok] at h
      obtain ⟨⟨r1, s1⟩, hc, h⟩ := h
      exact ih _ _ _ _ h
        ((createDirectories_builds cfg nf cf _ _ _ _ hc).valid hmin hlt hmax hv)
    · injection h with h
      injection h with h1 h2
      subst h1
      exact hv

/-! ## Uniqueness of the flattened paths -/

/-- Claim C4, refuted as stated.  With `-min-name-length 0 -max-name-length 2`
the first directory can get the empty name, and its path is the path of the
root: the round below returns the directory list `out, out`. -/
theorem empty_name_repeats_path :
    (iteration emptyNameConfig (fun _ i => i) 2 3 "out" (State.start id id)).bind
        (fun p => .ok (p.1.dirs, p.1.root.descNames, decide p.1.dirs.Nodup)) =
      .ok (["out", "out"], [""], false) := by
  decide!

/-- Claim C4, amended (path uniqueness).  With `1 <= min-name-length <
max-name-length`, for every output directory name, every state of the
generator and every budget, the list `root.list("", [])` taken after the
hierarchy construction holds no path twice; so the directory list of every
round that returns has no duplicates. -/
theorem paths_unique (cfg : Config) (nf fuel : Nat) (out : String)
    (hmin : 1 ≤ cfg.minFileNameLength)
    (hlt : cfg.minFileNameLength < cfg.maxFileNameLength)
    (hmax : inInt64 cfg.maxFileNameLength) :
    (∀ (st : State) (root : Dir) (st2 : State), st.fileNames = [] →
        driver cfg nf fuel (Dir.mk out 1 []) st = .ok (root, st2) →
        (root.list "" []).Nodup) ∧
      ∀ (seed : Int → Nat → Nat) (st : State) (round : Round) (st' : State),
        iteration cfg seed nf fuel out st = .ok (round, st') → round.dirs.Nodup := by
  have key : ∀ (st : State) (root : Dir) (st2 : State), st.fileNames = [] →
      driver cfg nf fuel (Dir.mk out 1 []) st = .ok (root, st2) →
      (root.list "" []).Nodup := by
    intro st root st2 hf hd
    have hv := driverLoop_valid cfg nf fuel hmin hlt hmax fuel _ _ _ _ hd (by
      intro n hn; simp [Dir.descNames, namesChildren] at hn)
    obtain ⟨⟨-, -, -, -, -, -, ⟨a1, f1, dn1, -, nd1, -⟩, -⟩, -⟩ :=
      driverLoop_extends cfg nf fuel fuel _ _ _ _ hd
    rw [hf] at f1 nd1
    simp only [Dir.descNames, namesChildren, List.nil_append, List.append_nil] at f1 dn1
    have hnd : root.descNames.Nodup := by
      rw [dn1, List.nodup_reverse, ← f1]
      exact nd1 List.nodup_nil
    exact list_nodup_of_names root hv hnd
  refine ⟨key, ?_⟩
  intro seed st round st' h
  obtain ⟨-, st2, hd, hdirs, -, -⟩ := iteration_ok cfg seed nf fuel out st round st' h
  rw [hdirs]
  exact key _ _ _ rfl hd

theorem paths_unique_witness :
    ∃ round st',
      iteration shortNamesConfig (fun s i => 3 * i + s.toNat) 5 9 "out" (State.start id id) =
        .ok (round, st') ∧ round.dirs.Nodup ∧ round.dirs.length = 4 := by
  obtain ⟨⟨round, st'⟩, h⟩ := isOk_elim (show (iteration shortNamesConfig
    (fun s i => 3 * i + s.toNat) 5 9 "out" (State.start id id)).isOk = true by decide!)
  have hlen : ((iteration shortNamesConfig (fun s i => 3 * i + s.toNat) 5 9 "out"
      (State.start id id)).bind fun p => .ok p.1.dirs.length) = .ok 4 := by decide!
  rw [h] at hlen
  simp only [Result.bind, Result.ok.injEq] at hlen
  exact ⟨round, st', h,
    (paths_unique shortNamesConfig 5 9 "out" (by decide) (by decide) (by decide)).2
      (fun s i => 3 * i + s.toNat) (State.start id id) round st' h, hlen⟩

/-! ## Edge cases of the hierarchy construction -/

mutual
theorem descDepths_length : ∀ d : Dir, d.descDepths.length = d.descNames.length
  | .mk _ _ cs => by rw [Dir.descDepths, Dir.descNames, depthsChildren_length cs]
theorem depthsChildren_length : ∀ cs : List Dir,
    (depthsChildren cs).length = (namesChildren cs).length
  | [] => by simp [depthsChildren, namesChildren]
  | c :: cs => by
    rw [depthsChildren, namesChildren, List.length_append, List.length_append,
      List.length_cons, List.length_cons, descDepths_length c, depthsChildren_length cs]
end

/-- Claim C11 (edge case max-depth = 0), evaluated where it fails.  With `-n 2
-files-per-directory 1 -max-depth 0` the root gets two children of depth 2 and
the flattened list has three entries: the depth limit only guards the
recursion into a new child, never the creation of the child.  This holds for
the round below and for every round of these flags that returns. -/
theorem maxDepth_zero_has_children :
    (iteration depthZeroConfig (fun _ i => i) 2 5 "out" (State.start id id)).bind
        (fun p => .ok (p.1.root.allDepths, p.1.dirs.length)) = .ok ([1, 2, 2], 3) ∧
      ∀ (seed : Int → Nat → Nat) (nf fuel : Nat) (out : String) (st : State)
        (round : Round) (st' : State),
        iteration depthZeroConfig seed nf fuel out st = .ok (round, st') →
        round.root.allDepths = [1, 2, 2] ∧ round.dirs.length = 3 := by
  constructor
  · decide!
  · intro seed nf fuel out st round st' h
    obtain ⟨-, hdirs, -, hk, htar, htot, hle, hdone, hdep, -⟩ :=
      iteration_tree depthZeroConfig seed nf fuel out st round st' h
    have ht : wrapInt (Int.tdiv depthZeroConfig.numberOfFiles
        depthZeroConfig.averageFilesPerDirectory) = 2 := by decide
    rw [ht] at htar
    rw [htar] at hle hdone
    have h1 := hle (by decide)
    have hn : round.root.descNames.length = 2 := by omega
    have hl : round.root.descDepths.length = 2 := by rw [descDepths_length, hn]
    have hall : ∀ x ∈ round.root.descDepths, x = 2 := by
      intro x hx
      have := hdep x hx
      have hm : max (1 : Int) depthZeroConfig.maxDepth = 1 := by decide
      rw [hm] at this
      omega
    constructor
    · unfold Dir.allDepths
      rw [hk, List.eq_replicate_of_mem hall, hl]
      rfl
    · rw [hdirs, list_eq_preorder, List.nil_append, preorder_length, size_eq_descNames, hn]

/-- Claim C12 (edge case target = 0).  When `file_count / files-per-directory`
is 0, a call of `createDirectories` returns the node and the state it was
given (no child, no draw, no name), the driver returns the root without
children, and the flattened list is the one-element list holding the path of
the root.  `0 <= file_count < files-per-directory` is such a case. -/
theorem target_zero_only_root (cfg : Config) (seed : Int → Nat → Nat) (nf fuel : Nat)
    (out : String) (st : State)
    (h0 : Int.tdiv cfg.numberOfFiles cfg.averageFilesPerDirectory = 0)
    (hfuel : 1 ≤ fuel) :
    (∀ (d : Dir) (s : State), ¬ s.totalDirectories < s.directoriesToCreate →
        createDirectories cfg nf fuel d s = .ok (d, s)) ∧
      (∀ s : State, ¬ s.totalDirectories < s.directoriesToCreate →
        driver cfg nf fuel (Dir.mk out 1 []) s = .ok (Dir.mk out 1 [], s)) ∧
      (Dir.mk out 1 []).list "" [] = [filepathJoin "" out] ∧
      (∀ (round : Round) (st' : State),
        iteration cfg seed nf fuel out st = .ok (round, st') →
        round.root = Dir.mk out 1 [] ∧ round.dirs = [filepathJoin "" out] ∧
          st'.totalDirectories = 0 ∧ st'.directoriesToCreate = 0) ∧
      (0 ≤ cfg.numberOfFiles → cfg.numberOfFiles < cfg.averageFilesPerDirectory →
        cfg.numberOfFiles / cfg.averageFilesPerDirectory = 0) := by
  obtain ⟨k, rfl⟩ : ∃ k, fuel = k + 1 := ⟨fuel - 1, by omega⟩
  have hcd : ∀ (d : Dir) (s : State), ¬ s.totalDirectories < s.directoriesToCreate →
      createDirectories cfg nf (k + 1) d s = .ok (d, s) := by
    intro d s hs
    rw [createDirectories, if_neg hs]
  have hdr : ∀ s : State, ¬ s.totalDirectories < s.directoriesToCreate →
      driver cfg nf (k + 1) (Dir.mk out 1 []) s = .ok (Dir.mk out 1 [], s) := by
    intro s hs
    rw [driver, driverLoop, if_neg hs]
  refine ⟨hcd, hdr, rfl, ?_, ?_⟩
  · intro round st' h
    obtain ⟨-, st2, hd, hdirs, hf, -⟩ := iteration_ok cfg seed nf (k + 1) out st round st' h
    rw [h0] at hd
    rw [hdr _ (by show ¬ (0 : Int) < wrapInt 0; decide)] at hd
    injection hd with hd
    injection hd with hroot hst
    obtain ⟨ht, hd3, -⟩ := fileLoop_ok cfg nf _ _ _ _ hf
    rw [← hroot] at hdirs
    refine ⟨hroot.symm, hdirs, ?_, ?_⟩
    · rw [hd3, ← hst]
    · rw [ht, ← hst]; show wrapInt 0 = 0; decide
  · intro hn hlt
    exact Int.ediv_eq_zero_of_lt hn hlt

theorem target_zero_only_root_witness :
    (∀ (d : Dir) (s : State), ¬ s.totalDirectories < s.directoriesToCreate →
        createDirectories noDirectoriesConfig 2 1 d s = .ok (d, s)) ∧
      (∀ s : State, ¬ s.totalDirectories < s.directoriesToCreate →
        driver noDirectoriesConfig 2 1 (Dir.mk "out" 1 []) s = .ok (Dir.mk "out" 1 [], s)) ∧
      (Dir.mk "out" 1 []).list "" [] = [filepathJoin "" "out"] ∧
      (∀ (round : Round) (st' : State),
        iteration noDirectoriesConfig (fun _ i => i) 2 1 "out" (State.start id id) =
          .ok (round, st') →
        round.root = Dir.mk "out" 1 [] ∧ round.dirs = [filepathJoin "" "out"] ∧
          st'.totalDirectories = 0 ∧ st'.directoriesToCreate = 0) ∧
      ((0 : Int) ≤ noDirectoriesConfig.numberOfFiles →
        noDirectoriesConfig.numberOfFiles < noDirectoriesConfig.averageFilesPerDirectory →
        noDirectoriesConfig.numberOfFiles / noDirectoriesConfig.averageFilesPerDirectory = 0) :=
  target_zero_only_root noDirectoriesConfig (fun _ i => i) 2 1 "out" (State.start id id)
    (by decide) (by decide)

/-- A round with target 0 that returns: the hierarchy is the root alone, the
flattened list is its path, and all three files go there. -/
theorem target_zero_sample :
    (iteration noDirectoriesConfig (fun _ i => i) 2 1 "out" (State.start id id)).bind
        (fun p => .ok (p.1.root.allDepths, p.1.dirs, p.1.files.map FileWrite.dir)) =
      .ok ([1], ["out"], ["out", "out", "out"]) := by
  decide!

/-! ## Single calls: fileName and the branch on 1 -/

/-- Claim C15 (allocation updates the set by exactly the returned name).
Whenever `fileName` returns `name`, the name was not in `fileNames`, the set
afterwards is the set before with `name` inserted (a name is in it exactly
when it is `name` or was in it before, so no rejected candidate is recorded
and nothing is removed), and apart from the generator no other variable
changes. -/
theorem fileName_inserts_name (cfg : Config) (nf : Nat) (st : State) (name : String)
    (st' : State) (h : fileName cfg nf st = .ok (name, st')) :
    name ∉ st.fileNames ∧ st'.fileNames = name :: st.fileNames ∧
      (∀ x, x ∈ st'.fileNames ↔ x = name ∨ x ∈ st.fileNames) ∧
      st'.directoriesToCreate = st.directoriesToCreate ∧
      st'.totalDirectories = st.totalDirectories ∧ st'.totalSize = st.totalSize ∧
      st'.written = st.written ∧ st'.crypt = st.crypt := by
  obtain ⟨hmem, r, rfl⟩ := fileName_ok cfg nf st name st' h
  exact ⟨hmem, rfl, fun x => List.mem_cons, rfl, rfl, rfl, rfl, rfl⟩

theorem fileName_inserts_name_witness :
    ∃ name st',
      fileName defaultConfig 2 { State.start (fun i => i / 5) id with fileNames := ["baba"] } =
        .ok (name, st') ∧
      name ∉ ["baba"] ∧ st'.fileNames = name :: ["baba"] ∧
      (∀ x, x ∈ st'.fileNames ↔ x = name ∨ x ∈ ["baba"]) := by
  obtain ⟨⟨name, st'⟩, h⟩ := isOk_elim (show (fileName defaultConfig 2
    { State.start (fun i => i / 5) id with fileNames := ["baba"] }).isOk = true by decide!)
  obtain ⟨h1, h2, h3, -⟩ := fileName_inserts_name defaultConfig 2
    { State.start (fun i => i / 5) id with fileNames := ["baba"] } name st' h
  exact ⟨name, st', h, h1, h2, h3⟩

/-- A call whose first candidate `baba` is rejected: the second candidate is
returned, and the set holds it and the old name only. -/
theorem fileName_rejected_candidate_sample :
    (fileName defaultConfig 1 { State.start (fun i => i / 5) id with fileNames := [] }).bind
        (fun p => .ok p.1) = .ok "baba" ∧
      (fileName defaultConfig 2
        { State.start (fun i => i / 5) id with fileNames := ["baba"] }).bind
        (fun p => .ok (p.1, p.2.fileNames)) = .ok ("ceced", ["ceced", "baba"]) := by
  decide!

/-- Claim C16 (branch outcome 1 ends sibling generation).  In a call entered
with `totalDirectories < directoriesToCreate`, if the draw `rand.Intn(4)` made
after the first child is appended is 1, the call returns at once: `d` has
exactly one more child, a node of depth `d.depth + 1` without children, and
`totalDirectories` has grown by exactly 1, whatever the target is. -/
theorem draw_one_returns (cfg : Config) (nf fuel : Nat) (d : Dir) (st : State)
    (name : String) (st1 : State) (r : Rand)
    (hlt : st.totalDirectories < st.directoriesToCreate)
    (hn : fileName cfg nf st = .ok (name, st1))
    (hr : st1.rand.Intn 4 = .ok (1, r)) :
    ∃ d' st', createDirectories cfg nf (fuel + 1) d st = .ok (d', st') ∧
      d'.children = d.children ++ [Dir.mk name (d.depth + 1) []] ∧
      d'.name = d.name ∧ d'.depth = d.depth ∧
      st'.totalDirectories = st.totalDirectories + 1 ∧
      st'.directoriesToCreate = st.directoriesToCreate ∧
      st'.fileNames = name :: st.fileNames ∧ st'.rand = r := by
  obtain ⟨-, r1, rfl⟩ := fileName_ok cfg nf st name st1 hn
  refine ⟨d.addChild (Dir.mk name (d.depth + 1) []),
    { st with rand := r, fileNames := name :: st.fileNames,
              totalDirectories := st.totalDirectories + 1 }, ?_, ?_, addChild_name _ _,
    addChild_depth _ _, rfl, rfl, rfl, rfl⟩
  · rw [createDirectories, if_pos hlt, hn]
    simp only [Result.bind]
    simp only at hr
    rw [hr]
    rfl
  · cases d; rfl

theorem draw_one_returns_witness :
    ∃ name d' st',
      createDirectories defaultConfig 1 1 (Dir.mk "out" 1 [])
        { State.start (fun i => i) id with directoriesToCreate := 100 } = .ok (d', st') ∧
      d'.children = [] ++ [Dir.mk name (1 + 1) []] ∧
      st'.totalDirectories = 0 + 1 ∧ st'.directoriesToCreate = 100 := by
  obtain ⟨⟨name, st1⟩, hn⟩ := isOk_elim (show (fileName defaultConfig 1
    { State.start (fun i => i) id with directoriesToCreate := 100 }).isOk = true by decide!)
  have hdraw : ((fileName defaultConfig 1
      { State.start (fun i => i) id with directoriesToCreate := 100 }).bind
      fun p => (p.2.rand.Intn 4).bind fun q => .ok q.1) = .ok 1 := by decide!
  rw [hn, bind_eq_ok] at hdraw
  obtain ⟨p, hp, hq⟩ := hdraw
  injection hp with hp
  subst hp
  rw [bind_eq_ok] at hq
  obtain ⟨⟨c, r⟩, hr, hc⟩ := hq
  injection hc with hc
  simp only at hc hr
  subst hc
  obtain ⟨d', st', h1, h2, -, -, h3, h4, -⟩ := draw_one_returns defaultConfig 1 0
    (Dir.mk "out" 1 []) { State.start (fun i => i) id with directoriesToCreate := 100 }
    name st1 r (by decide) hn hr
  exact ⟨name, d', st', h1, h2, h3, h4⟩

/-! ## An exhausted name space -/

/-- Claim C19 (name allocation need not terminate).  With `-min-name-length 0
-max-name-length 1` every name `fileName` returns is the empty string; and
once the empty string is in `fileNames`, for every state of the generator and
every retry budget `fileName` returns no name: the budget is always spent. -/
theorem fileName_exhausted (cfg : Config) (nf : Nat) (st : State)
    (hmin : cfg.minFileNameLength = 0) (hmax : cfg.maxFileNameLength = 1)
    (hmem : "" ∈ st.fileNames) :
    fileName cfg nf st = .nameLoop ∧
      ∀ (k : Nat) (s : State) (name : String) (s' : State),
        fileName cfg k s = .ok (name, s') → name = "" := by
  have hw : wrapInt (cfg.maxFileNameLength - cfg.minFileNameLength) = 1 := by
    rw [hmin, hmax]; decide
  have hcand : ∀ (s : State) (k : Nat), ∃ r : Rand,
      fileName cfg (k + 1) s =
        if "" ∈ s.fileNames then fileName cfg k { s with rand := r }
        else .ok ("", { s with rand := r, fileNames := "" :: s.fileNames }) := by
    intro s k
    refine ⟨{ s.rand with pos := s.rand.pos + 1 }, ?_⟩
    rw [fileName, hw, Intn_pos (by decide)]
    simp only [Result.bind]
    have h0 : wrapInt (((s.rand.draws s.rand.pos % (1 : Int).toNat : Nat) : Int) +
        cfg.minFileNameLength) = 0 := by
      rw [hmin]
      have : s.rand.draws s.rand.pos % (1 : Int).toNat = 0 := by
        simp [Nat.mod_one]
      rw [this]
      decide
    rw [h0]
    rfl
  constructor
  · induction nf generalizing st with
    | zero => rfl
    | succ nf ih =>
      obtain ⟨r, hr⟩ := hcand st nf
      rw [hr, if_pos hmem]
      exact ih _ hmem
  · intro k
    induction k with
    | zero => intro s name s' h; simp [fileName] at h
    | succ k ih =>
      intro s name s' h
      obtain ⟨r, hr⟩ := hcand s k
      rw [hr] at h
      split at h
      · exact ih _ _ _ h
      · injection h with h
        injection h with h1 h2
        exact h1.symm

theorem fileName_exhausted_witness :
    fileName exhaustedConfig 7 { State.start (fun i => 3 * i + 1) id with fileNames := [""] } =
        .nameLoop ∧
      ∀ (k : Nat) (s : State) (name : String) (s' : State),
        fileName exhaustedConfig k s = .ok (name, s') → name = "" :=
  fileName_exhausted exhaustedConfig 7
    { State.start (fun i => 3 * i + 1) id with fileNames := [""] } (by decide) (by decide)
    (by decide)

/-- With the same flags the first allocation returns the empty name, which
puts it in `fileNames`; the second allocation then never returns. -/
theorem fileName_exhausted_sample :
    (fileName exhaustedConfig 1 (State.start (fun i => 3 * i + 1) id)).bind
        (fun p => .ok (p.1, p.2.fileNames)) = .ok ("", [""]) ∧
      ((fileName exhaustedConfig 1 (State.start (fun i => 3 * i + 1) id)).bind
        fun p => (fileName exhaustedConfig 50 p.2).bind fun q => .ok q.1) = .nameLoop := by
  decide!

/-! ## The pattern of a name -/

theorem randomString_chars {n : Int} {r r' : Rand} {s : String}
    (h : randomString n r = .ok (s, r')) :
    s.data.length = n.toNat ∧
      ∀ j < n.toNat, ∀ c, s.data[j]? = some c →
        ∃ source, pattern[j % 8]? = some source ∧ c ∈ source := by
  unfold randomString at h
  split at h
  · cases h
  · rw [bind_eq_ok] at h
    obtain ⟨⟨o, r1⟩, hl, h⟩ := h
    injection h with h
    injection h with h1 h2
    subst h1
    obtain ⟨hlen, hall⟩ := randomStringLoop_chars _ 0 0 _ r o r1 rfl hl (by
      intro j hj; omega)
    rw [List.length_replicate] at hlen
    exact ⟨hlen, fun j hj c hc => hall j (by omega) c hc⟩

/-- Claim C14 (name pattern).  For every `n >= 0` and every state of the
generator, `randomString(n)` returns (no index into a character class is out
of range) a string of `n` bytes whose byte `i`, for every `i < n`, belongs to
the class at position `i mod 8` of the pattern consonant, vowel, consonant,
vowel, consonant, vowel, consonant, digit; the consonants are the 21 letters
`bcdfghjklmnpqrstvwxyz`, the vowels `aeiou`, the digits `0123456789`. -/
theorem randomString_pattern (n : Int) (r : Rand) (hn : 0 ≤ n) :
    (∃ s r', randomString n r = .ok (s, r') ∧ s.data.length = n.toNat ∧
        ∀ i, i < n.toNat →
          ∃ c source, s.data[i]? = some c ∧ pattern[i % 8]? = some source ∧ c ∈ source) ∧
      pattern = [consonant, vowel, consonant, vowel, consonant, vowel, consonant, digit] ∧
      consonant = "bcdfghjklmnpqrstvwxyz".toList ∧ consonant.length = 21 ∧
      vowel = "aeiou".toList ∧ digit = "0123456789".toList ∧
      ∀ source ∈ pattern, ∀ draw : Nat, draw % source.length < source.length := by
  refine ⟨?_, rfl, rfl, rfl, rfl, rfl, ?_⟩
  · obtain ⟨s, hs, -⟩ := randomString_ok n r hn
    obtain ⟨hlen, hall⟩ := randomString_chars hs
    refine ⟨s, _, hs, hlen, ?_⟩
    intro i hi
    have hi' : i < s.data.length := by omega
    obtain ⟨source, h1, h2⟩ := hall i hi _ (List.getElem?_eq_getElem hi')
    exact ⟨s.data[i], source, List.getElem?_eq_getElem hi', h1, h2⟩
  · intro source hs draw
    have hpos : ∀ x ∈ pattern, 0 < x.length := by decide
    exact Nat.mod_lt _ (hpos source hs)

theorem randomString_pattern_witness :
    (∃ s r', randomString 11 ⟨fun i => 7 * i + 3, 0⟩ = .ok (s, r') ∧
        s.data.length = (11 : Int).toNat ∧
        ∀ i, i < (11 : Int).toNat →
          ∃ c source, s.data[i]? = some c ∧ pattern[i % 8]? = some source ∧ c ∈ source) ∧
      pattern = [consonant, vowel, consonant, vowel, consonant, vowel, consonant, digit] ∧
      consonant = "bcdfghjklmnpqrstvwxyz".toList ∧ consonant.length = 21 ∧
      vowel = "aeiou".toList ∧ digit = "0123456789".toList ∧
      ∀ source ∈ pattern, ∀ draw : Nat, draw % source.length < source.length :=
  randomString_pattern 11 ⟨fun i => 7 * i + 3, 0⟩ (by decide)

/-- A name of eleven bytes: the pattern starts again after the digit. -/
theorem randomString_sample :
    (randomString 11 ⟨fun i => 7 * i + 3, 0⟩).bind (fun p => .ok p.1) = .ok "fawunof2wen" := by
  decide!

/-! ## The driver reaches the target -/

/-- A returning call of `createDirectories` entered below the target has
created at least one directory. -/
theorem Builds.progress {cfg : Config} {nf : Nat} {d d' : Dir} {st st' : State}
    (h : Builds cfg nf d st d' st') (hlt : st.totalDirectories < st.directoriesToCreate) :
    st.totalDirectories + 1 ≤ st'.totalDirectories := by
  cases h with
  | done _ _ hd => exact absurd hlt hd
  | stop _ _ name st1 r _ hn hr =>
    obtain ⟨-, r1, rfl⟩ := fileName_ok cfg nf st name st1 hn
    simp only [counted]
    omega
  | descend _ _ name st1 r sub st4 _ _ _ hn hr hd hsub hrest =>
    obtain ⟨-, r1, rfl⟩ := fileName_ok cfg nf st name st1 hn
    obtain ⟨-, -, -, -, -, -, a2, -, -, td2, -, -⟩ := hsub.frame
    obtain ⟨-, -, -, -, -, -, a3, -, -, td3, -, -⟩ := hrest.frame
    simp only [counted] at td2
    omega
  | next _ _ name st1 c r _ _ _ hn hr hc hrest =>
    obtain ⟨-, r1, rfl⟩ := fileName_ok cfg nf st name st1 hn
    obtain ⟨-, -, -, -, -, -, a3, -, -, td3, -, -⟩ := hrest.frame
    simp only [counted] at td3
    omega

/-- Claim C13 (the driver reaches the target).  Every call of
`createDirectories` that starts below the target and returns has increased
`totalDirectories` by at least 1 and not beyond the target.  So for a
non-negative distance to the target the driver loop, given as many iterations
as directories are missing plus the final test, returns unless a `fileName`
call spends its retry budget, and it exits with `totalDirectories` exactly
equal to `directoriesToCreate`. -/
theorem driver_reaches_target (cfg : Config) (nf cf fuel : Nat) (root : Dir) (st : State)
    (hmin : 0 ≤ cfg.minFileNameLength)
    (hlt : cfg.minFileNameLength < cfg.maxFileNameLength)
    (hmax : inInt64 cfg.maxFileNameLength)
    (h0 : st.totalDirectories ≤ st.directoriesToCreate)
    (hcf : 2 * (st.directoriesToCreate - st.totalDirectories).toNat < cf)
    (hfuel : (st.directoriesToCreate - st.totalDirectories).toNat < fuel) :
    (driverLoop cfg nf cf fuel root st = .nameLoop ∨
        ∃ root' st', driverLoop cfg nf cf fuel root st = .ok (root', st') ∧
          st'.totalDirectories = st.directoriesToCreate ∧
          st'.directoriesToCreate = st.directoriesToCreate) ∧
      ∀ (k : Nat) (d : Dir) (s : State) (d' : Dir) (s' : State),
        s.totalDirectories < s.directoriesToCreate →
        createDirectories cfg nf k d s = .ok (d', s') →
        s.totalDirectories + 1 ≤ s'.totalDirectories ∧
          s'.totalDirectories ≤ s'.directoriesToCreate := by
  constructor
  · rcases driverLoop_progress cfg nf cf hmin hlt hmax fuel root st hcf hfuel with
      h | ⟨root', st', h⟩
    · left; exact h
    · right
      obtain ⟨⟨-, -, t1, -, -, -, ⟨a1, -, -, -, -, le1⟩, -⟩, hdone⟩ :=
        driverLoop_extends cfg nf cf fuel _ _ _ _ h
      have := le1 h0
      exact ⟨root', st', h, by omega, t1⟩
  · intro k d s d' s' hs hc
    have hb := createDirectories_builds cfg nf k d s d' s' hc
    obtain ⟨-, -, t1, -, -, -, a1, -, -, -, -, le1⟩ := hb.frame
    exact ⟨hb.progress hs, by rw [t1]; exact le1 (le_of_lt hs)⟩

theorem driver_reaches_target_witness :
    (driverLoop defaultConfig 3 7 4 (Dir.mk "out" 1 [])
          { State.start (fun i => 5 * i + 2) id with directoriesToCreate := 3 } = .nameLoop ∨
        ∃ root' st', driverLoop defaultConfig 3 7 4 (Dir.mk "out" 1 [])
            { State.start (fun i => 5 * i + 2) id with directoriesToCreate := 3 } =
              .ok (root', st') ∧
          st'.totalDirectories = 3 ∧ st'.directoriesToCreate = 3) ∧
      ∀ (k : Nat) (d : Dir) (s : State) (d' : Dir) (s' : State),
        s.totalDirectories < s.directoriesToCreate →
        createDirectories defaultConfig 3 k d s = .ok (d', s') →
        s.totalDirectories + 1 ≤ s'.totalDirectories ∧
          s'.totalDirectories ≤ s'.directoriesToCreate :=
  driver_reaches_target defaultConfig 3 7 4 (Dir.mk "out" 1 [])
    { State.start (fun i => 5 * i + 2) id with directoriesToCreate := 3 }
    (by decide) (by decide) (by decide) (by decide) (by decide) (by decide)

/-- The driver loop of the witness returns, with the counter at the target 3
and three nodes below the root. -/
theorem driver_reaches_target_sample :
    (driverLoop defaultConfig 3 7 4 (Dir.mk "out" 1 [])
        { State.start (fun i => 5 * i + 2) id with directoriesToCreate := 3 }).bind
      (fun p => .ok (p.2.totalDirectories, p.1.descNames.length)) = .ok (3, 3) := by
  decide!

/-! ## Selecting a directory -/

/-- Claim C17 (directory selection stays in range).  After the hierarchy
construction `totalDirectories` is the number of nodes below the root, the
flattened list has `totalDirectories + 1`, so at least one, entries; hence for
every state of the generator `rand.Intn(len(dirs))` is defined and indexes an
entry of `dirs`, and every iteration of the file loop gets past the selection
to `fileName` and `writeFile` with a directory of the list. -/
theorem dir_selection_in_range (cfg : Config) (nf fuel : Nat) (out : String) (st : State)
    (root : Dir) (st2 : State) (h0 : st.totalDirectories = 0)
    (h : driver cfg nf fuel (Dir.mk out 1 []) st = .ok (root, st2)) :
    (root.size : Int) = st2.totalDirectories + 1 ∧
      ((root.list "" []).length : Int) = st2.totalDirectories + 1 ∧
      1 ≤ (root.list "" []).length ∧
      (∀ r : Rand, ∃ j dir,
        r.Intn (root.list "" []).length = .ok (j, { r with pos := r.pos + 1 }) ∧
          j < (root.list "" []).length ∧ (root.list "" [])[j]? = some dir) ∧
      ∀ (k : Nat) (s : State), ∃ dir ∈ root.list "" [],
        fileLoop cfg nf (root.list "" []) (k + 1) s =
          (fileName cfg nf { s with rand := { s.rand with pos := s.rand.pos + 1 } }).bind
            fun ns => (writeFile cfg dir ns.1 ns.2).bind
              fun s2 => fileLoop cfg nf (root.list "" []) k s2 := by
  obtain ⟨⟨-, -, -, -, -, -, ⟨a1, -, dn1, td1, -, -⟩, -⟩, -⟩ :=
    driverLoop_extends cfg nf fuel fuel _ _ _ _ h
  simp only [Dir.descNames, namesChildren, List.nil_append] at dn1
  rw [h0] at td1
  have hsize : (root.size : Int) = st2.totalDirectories + 1 := by
    rw [size_eq_descNames, td1, dn1]
    simp only [List.length_reverse]
    push_cast
    omega
  have hlen : (root.list "" []).length = root.size := by
    rw [list_eq_preorder, List.nil_append, preorder_length]
  have hpos : 1 ≤ (root.list "" []).length := by
    rw [hlen, size_eq_descNames]; omega
  have hsel : ∀ r : Rand, ∃ j dir,
      r.Intn (root.list "" []).length = .ok (j, { r with pos := r.pos + 1 }) ∧
        j < (root.list "" []).length ∧ (root.list "" [])[j]? = some dir := by
    intro r
    have hj : r.draws r.pos % (((root.list "" []).length : Nat) : Int).toNat <
        (root.list "" []).length := by
      simpa using Nat.mod_lt (r.draws r.pos) hpos
    exact ⟨_, _, Intn_pos (by omega), hj, List.getElem?_eq_getElem hj⟩
  refine ⟨hsize, by rw [hlen, hsize], hpos, hsel, ?_⟩
  intro k s
  obtain ⟨j, dir, hi, hj, hd⟩ := hsel s.rand
  refine ⟨dir, List.getElem?_mem hd, ?_⟩
  rw [fileLoop, hi]
  simp only [Result.bind, hd]

theorem dir_selection_in_range_witness :
    ∃ root st2,
      driver defaultConfig 3 7 (Dir.mk "out" 1 [])
        { State.start (fun i => 5 * i + 2) id with directoriesToCreate := 3 } =
          .ok (root, st2) ∧
      (root.size : Int) = st2.totalDirectories + 1 ∧
      ((root.list "" []).length : Int) = st2.totalDirectories + 1 ∧
      1 ≤ (root.list "" []).length ∧ st2.totalDirectories = 3 := by
  obtain ⟨⟨root, st2⟩, h⟩ := isOk_elim (show (driver defaultConfig 3 7 (Dir.mk "out" 1 [])
    { State.start (fun i => 5 * i + 2) id with directoriesToCreate := 3 }).isOk = true by
      decide!)
  have ht : ((driver defaultConfig 3 7 (Dir.mk "out" 1 [])
      { State.start (fun i => 5 * i + 2) id with directoriesToCreate := 3 }).bind
      fun p => .ok p.2.totalDirectories) = .ok 3 := by decide!
  rw [h] at ht
  simp only [Result.bind, Result.ok.injEq] at ht
  obtain ⟨h1, h2, h3, -⟩ := dir_selection_in_range defaultConfig 3 7 "out"
    { State.start (fun i => 5 * i + 2) id with directoriesToCreate := 3 } root st2 rfl h
  exact ⟨root, st2, h, h1, h2, h3, ht⟩

/-! ## The depth structure of the tree -/

theorem linksChildren_append (pd : Int) (cs : List Dir) (c : Dir) :
    linksChildren pd (cs ++ [c]) =
      linksChildren pd cs ++ ((pd, c.depth, c.children.length) :: c.links) := by
  induction cs with
  | nil => simp [linksChildren]
  | cons x xs ih => simp [linksChildren, ih]

theorem addChild_links (d c : Dir) :
    (d.addChild c).links = d.links ++ ((d.depth, c.depth, c.children.length) :: c.links) := by
  cases d with
  | mk n k cs => simp [Dir.addChild, Dir.links, Dir.depth, linksChildren_append]

theorem newChild_links (d : Dir) (name : String) : (newChild d name).links = [] := rfl

theorem newChild_children (d : Dir) (name : String) : (newChild d name).children = [] := rfl

mutual
theorem links_depths : ∀ d : Dir, d.links.map (fun e => e.2.1) = d.descDepths
  | .mk _ _ cs => by rw [Dir.links, Dir.descDepths, linksChildren_depths _ cs]
theorem linksChildren_depths : ∀ (pd : Int) (cs : List Dir),
    (linksChildren pd cs).map (fun e => e.2.1) = depthsChildren cs
  | _, [] => by simp [linksChildren, depthsChildren]
  | pd, c :: cs => by
    rw [linksChildren, depthsChildren, List.map_append, List.map_cons, links_depths c,
      linksChildren_depths pd cs]
end

/-- The entries of the nodes a returning call of `createDirectories` on `d`
creates: each node is one deeper than its parent, has children only if its
depth is at most `max-depth`, and lies between `d.depth + 1` and one more than
the larger of `d.depth` and `max-depth`. -/
theorem Builds.links {cfg : Config} {nf : Nat} {d d' : Dir} {st st' : State}
    (h : Builds cfg nf d st d' st') :
    ∃ new : List (Int × Int × Nat), d'.links = d.links ++ new ∧
      ∀ e ∈ new, e.2.1 = e.1 + 1 ∧ (0 < e.2.2 → e.2.1 ≤ cfg.maxDepth) ∧
        d.depth + 1 ≤ e.2.1 ∧ e.2.1 ≤ max d.depth cfg.maxDepth + 1 := by
  induction h with
  | done d st h => exact ⟨[], by simp, by simp⟩
  | stop d st name st1 r h hn hr =>
    refine ⟨[(d.depth, d.depth + 1, 0)], by
      rw [addChild_links, newChild_links, newChild_depth, newChild_children]; rfl, ?_⟩
    intro e he
    simp only [List.mem_singleton] at he
    subst he
    refine ⟨rfl, fun h => absurd h (Nat.lt_irrefl 0), le_refl _, ?_⟩
    have := le_max_left d.depth cfg.maxDepth
    show d.depth + 1 ≤ _
    omega
  | descend d st name st1 r sub st4 d' st' h hn hr hd hsub hrest ih1 ih2 =>
    obtain ⟨n1, e1, b1⟩ := ih1
    obtain ⟨n2, e2, b2⟩ := ih2
    have hsd : sub.depth = d.depth + 1 := by
      rw [(Builds.frame hsub).2.1]; rfl
    rw [newChild_links, List.nil_append] at e1
    rw [newChild_depth] at b1
    rw [addChild_links, hsd, e1] at e2
    rw [addChild_depth] at b2
    have hm : max d.depth cfg.maxDepth = cfg.maxDepth := max_eq_right (le_of_lt hd)
    have hm1 : max (d.depth + 1) cfg.maxDepth = cfg.maxDepth := max_eq_right (by omega)
    rw [hm] at b2
    rw [hm1] at b1
    refine ⟨((d.depth, d.depth + 1, sub.children.length) :: n1) ++ n2, by rw [e2]; simp, ?_⟩
    intro e he
    rw [hm]
    rcases List.mem_append.mp he with he | he
    · rcases List.mem_cons.mp he with he | he
      · subst he
        exact ⟨rfl, fun _ => by show d.depth + 1 ≤ _; omega, le_refl _,
          by show d.depth + 1 ≤ _; omega⟩
      · obtain ⟨h1, h2, h3, h4⟩ := b1 e he
        exact ⟨h1, h2, by omega, h4⟩
    · exact b2 e he
  | next d st name st1 c r d' st' h hn hr hc hrest ih =>
    obtain ⟨n2, e2, b2⟩ := ih
    rw [addChild_links, newChild_links, newChild_depth, newChild_children] at e2
    rw [addChild_depth] at b2
    refine ⟨(d.depth, d.depth + 1, 0) :: n2, by rw [e2]; simp, ?_⟩
    intro e he
    rcases List.mem_cons.mp he with he | he
    · subst he
      refine ⟨rfl, fun h => absurd h (Nat.lt_irrefl 0), le_refl _, ?_⟩
      have := le_max_left d.depth cfg.maxDepth
      show d.depth + 1 ≤ _
      omega
    · exact b2 e he

theorem driverLoop_links (cfg : Config) (nf cf : Nat) :
    ∀ (fuel : Nat) (root : Dir) (st : State) (root' : Dir) (st' : State),
      driverLoop cfg nf cf fuel root st = .ok (root', st') →
      ∃ new : List (Int × Int × Nat), root'.links = root.links ++ new ∧
        ∀ e ∈ new, e.2.1 = e.1 + 1 ∧ (0 < e.2.2 → e.2.1 ≤ cfg.maxDepth) ∧
          root.depth + 1 ≤ e.2.1 ∧ e.2.1 ≤ max root.depth cfg.maxDepth + 1 := by
  intro fuel
  induction fuel with
  | zero => intro root st root' st' h; simp [driverLoop] at h
  | succ fuel ih =>
    intro root st root' st' h
    rw [driverLoop] at h
    split at h
    · rw [bind_eq_ok] at h
      obtain ⟨⟨r1, s1⟩, hc, h⟩ := h
      have hb := createDirectories_builds cfg nf cf _ _ _ _ hc
      obtain ⟨n1, e1, b1⟩ := hb.links
      obtain ⟨n2, e2, b2⟩ := ih _ _ _ _ h
      simp only at e2 b2
      rw [hb.frame.2.1] at b2
      refine ⟨n1 ++ n2, by rw [e2, e1]; simp, ?_⟩
      intro e he
      rcases List.mem_append.mp he with he | he
      · exact b1 e he
      · exact b2 e he
    · injection h with h
      injection h with h1 h2
      subst h1
      exact ⟨[], by simp, by simp⟩

/-- Claim C18 (depth structure of the built tree).  In the tree the driver
returns the root has depth 1, and for every node below the root: its depth
field is the depth field of its parent plus 1; it has children only if its
depth is at most `max-depth` (children are only ever added by a call of
`createDirectories` on the node, and such a call is made on the root or under
the guard `d.depth < max-depth` on the parent); and its depth is at least 2
and at most `max(max-depth, 1) + 1`.  The entries range over all the nodes
below the root: their depths are the depth fields in pre-order. -/
theorem depth_structure (cfg : Config) (nf fuel : Nat) (out : String) (st : State)
    (root : Dir) (st2 : State)
    (h : driver cfg nf fuel (Dir.mk out 1 []) st = .ok (root, st2)) :
    root.depth = 1 ∧
      (∀ e ∈ root.links, e.2.1 = e.1 + 1 ∧ (0 < e.2.2 → e.2.1 ≤ cfg.maxDepth) ∧
        2 ≤ e.2.1 ∧ e.2.1 ≤ max cfg.maxDepth 1 + 1) ∧
      root.links.map (fun e => e.2.1) = root.descDepths ∧
      root.links.length = root.descNames.length ∧
      ∀ x ∈ root.allDepths, 1 ≤ x ∧ x ≤ max cfg.maxDepth 1 + 1 := by
  obtain ⟨⟨-, k1, -⟩, -⟩ := driverLoop_extends cfg nf fuel fuel _ _ _ _ h
  obtain ⟨new, e1, b1⟩ := driverLoop_links cfg nf fuel fuel _ _ _ _ h
  have hk : root.depth = 1 := k1
  have hl0 : (Dir.mk out 1 []).links = [] := rfl
  rw [hl0, List.nil_append] at e1
  have hd0 : (Dir.mk out 1 []).depth = 1 := rfl
  rw [hd0] at b1
  have hall : ∀ e ∈ root.links, e.2.1 = e.1 + 1 ∧ (0 < e.2.2 → e.2.1 ≤ cfg.maxDepth) ∧
      2 ≤ e.2.1 ∧ e.2.1 ≤ max cfg.maxDepth 1 + 1 := by
    intro e he
    rw [e1] at he
    obtain ⟨h1, h2, h3, h4⟩ := b1 e he
    rw [max_comm] at h4
    exact ⟨h1, h2, by omega, h4⟩
  refine ⟨hk, hall, links_depths root, ?_, ?_⟩
  · rw [← descDepths_length, ← links_depths, List.length_map]
  · intro x hx
    unfold Dir.allDepths at hx
    rcases List.mem_cons.mp hx with hx | hx
    · rw [hx, hk]
      have := le_max_right cfg.maxDepth 1
      omega
    · rw [← links_depths] at hx
      obtain ⟨e, he, rfl⟩ := List.mem_map.mp hx
      obtain ⟨-, -, h3, h4⟩ := hall e he
      exact ⟨by omega, h4⟩

theorem depth_structure_witness :
    ∃ root st2,
      driver depthTwoConfig 1 5 (Dir.mk "out" 1 [])
        { State.start (fun i => i / 6) id with directoriesToCreate := 2 } = .ok (root, st2) ∧
      root.depth = 1 ∧
      (∀ e ∈ root.links, e.2.1 = e.1 + 1 ∧ (0 < e.2.2 → e.2.1 ≤ 2) ∧
        2 ≤ e.2.1 ∧ e.2.1 ≤ max 2 1 + 1) ∧
      root.links = [(1, 2, 1), (2, 3, 0)] := by
  obtain ⟨⟨root, st2⟩, h⟩ := isOk_elim (show (driver depthTwoConfig 1 5 (Dir.mk "out" 1 [])
    { State.start (fun i => i / 6) id with directoriesToCreate := 2 }).isOk = true by
      decide!)
  have hl : ((driver depthTwoConfig 1 5 (Dir.mk "out" 1 [])
      { State.start (fun i => i / 6) id with directoriesToCreate := 2 }).bind
      fun p => .ok p.1.links) = .ok [(1, 2, 1), (2, 3, 0)] := by decide!
  rw [h] at hl
  simp only [Result.bind, Result.ok.injEq] at hl
  obtain ⟨h1, h2, -⟩ := depth_structure depthTwoConfig 1 5 "out"
    { State.start (fun i => i / 6) id with directoriesToCreate := 2 } root st2 h
  exact ⟨root, st2, h, h1, h2, hl⟩

end MakeTestFiles
